import Mathlib

/-!
Verification of the connected-components program `sccs32s.cpp`.

The program reads an undirected edge list, stores it in two fixed-capacity
arrays (optionally backed by a temporary file mapping), gives every node an
initial label equal to its own id, and then iteratively merges labels,
always replacing a label by a smaller one, until no edge joins two
different labels.  The development below is a shallow embedding of that
program: node ids are `Nat`, the `std::unordered_map` label table `sccs`
and the per-iteration merge map `merge` are association lists, the
`std::unordered_multimap` reverse index `sccs2` is a list of
(label, node) pairs, and the edge arrays are a list of pairs mutated with
the same swap-with-last removal the program uses.
-/

namespace Sccs32s

/-- Lookup in an association list, first matching key wins
(the model of `unordered_map::find`). -/
def alookup (k : Nat) : List (Nat × Nat) → Option Nat
  | [] => none
  | p :: rest => if p.1 = k then some p.2 else alookup k rest

/-- The keys of an association list. -/
def keysOf (m : List (Nat × Nat)) : List Nat := m.map Prod.fst

/-- Overwrite the value stored under key `k` (a no-op when `k` is absent);
the model of writing through an `unordered_map` iterator. -/
def setVal (k r : Nat) (m : List (Nat × Nat)) : List (Nat × Nat) :=
  m.map (fun p => if p.1 = k then (k, r) else p)

/-- Value stored under `x`, defaulting to `0` (the value
`unordered_map::operator[]` would value-initialize); in every reachable
state the key is present, so the default is never observed. -/
def getL (t : List (Nat × Nat)) (x : Nat) : Nat := (alookup x t).getD 0

/-- The association list has no repeated keys (invariant of
`unordered_map`). -/
def NodupKeys (m : List (Nat × Nat)) : Prop := (keysOf m).Nodup

/-- Every entry maps to a strictly smaller value; the merge map always
satisfies this because the scan records `merge[hi] = lo` with `lo < hi`. -/
def Decreasing (m : List (Nat × Nat)) : Prop := ∀ p ∈ m, p.2 < p.1

/-- All endpoints occurring in an edge list, with multiplicity. -/
def nodesOf (es : List (Nat × Nat)) : List Nat :=
  es.foldr (fun e acc => e.1 :: e.2 :: acc) []

/-- Sum of the stored labels; the termination measure of the iteration. -/
def sumVals (t : List (Nat × Nat)) : Nat := (t.map Prod.snd).sum

/-- Step 1 of `main` (lines 192-199): insert every endpoint that is not
yet present with itself as its own label. -/
def buildSccs : List (Nat × Nat) → List (Nat × Nat) → List (Nat × Nat)
  | [], t => t
  | e :: rest, t =>
    let t1 := if (alookup e.1 t).isSome then t else t ++ [(e.1, e.1)]
    let t2 := if (alookup e.2 t1).isSome then t1 else t1 ++ [(e.2, e.2)]
    buildSccs rest t2

/-- Remove the edge at position `i` by overwriting it with the last live
edge and dropping the last slot (`u1[i]=u1[n-1]; u2[i]=u2[n-1]; n--`). -/
def swapRemove (es : List (Nat × Nat)) (i : Nat) : List (Nat × Nat) :=
  (es.set i (es.getLastD (0, 0))).dropLast

/-- Record a pending merge, keeping the smaller target when the source is
already present (`merge.insert` / `it->second = i1` in lines 229-231). -/
def mergeAdd (hi lo : Nat) (m : List (Nat × Nat)) : List (Nat × Nat) :=
  match alookup hi m with
  | none => m ++ [(hi, lo)]
  | some old => if lo < old then setVal hi lo m else m

/-- The edge scan of one iteration (lines 208-232): walk the live edges,
swap-removing any edge whose endpoints already share a label, and record a
merge entry `hi -> lo` for every edge whose labels differ.  The first
argument is fuel; `es.length - i` strictly decreases at each recursive
call, so fuel `es.length + 1` is always enough. -/
def scanGo (sccs : List (Nat × Nat)) :
    Nat → List (Nat × Nat) → Nat → List (Nat × Nat) →
    List (Nat × Nat) × List (Nat × Nat)
  | 0, es, _, m => (es, m)
  | fuel + 1, es, i, m =>
    if h : i < es.length then
      let e := es.get ⟨i, h⟩
      let l1 := getL sccs e.1
      let l2 := getL sccs e.2
      if l1 = l2 then scanGo sccs fuel (swapRemove es i) i m
      else scanGo sccs fuel es (i + 1) (mergeAdd (max l1 l2) (min l1 l2) m)
    else (es, m)

/-- Run the scan from the start of the edge array with adequate fuel. -/
def scanEdges (sccs es : List (Nat × Nat)) :
    List (Nat × Nat) × List (Nat × Nat) :=
  scanGo sccs (es.length + 1) es 0 []

/-- Follow merge targets while they are themselves sources
(`it2 = merge.find(it1->second)`).  Fuel-driven; when the map is
`Decreasing`, fuel `x + 1` always reaches the fixpoint. -/
def chaseF : Nat → List (Nat × Nat) → Nat → Nat
  | 0, _, x => x
  | fuel + 1, m, x =>
    match alookup x m with
    | none => x
    | some v => chaseF fuel m v

/-- The ultimate representative reached from `x` through the merge map. -/
def chase (m : List (Nat × Nat)) (x : Nat) : Nat := chaseF (x + 1) m x

/-- The chain walk of lines 240-246: starting at key `cur` whose stored
value is `v`, return the keys whose values must be rewritten (`updates`)
and the final representative (`idlast`). -/
def followChain : Nat → List (Nat × Nat) → Nat → Nat → List Nat × Nat
  | 0, _, _, v => ([], v)
  | fuel + 1, m, cur, v =>
    match alookup v m with
    | none => ([], v)
    | some v' =>
      let r := followChain fuel m v v'
      (cur :: r.1, r.2)

/-- Rewrite the values of all the listed keys to `r`
(the `updates.back()->second = idlast` loop of lines 248-251). -/
def setVals (ks : List Nat) (r : Nat) (m : List (Nat × Nat)) :
    List (Nat × Nat) :=
  ks.foldl (fun acc k => setVal k r acc) m

/-- Resolve the chain that starts at key `s` of the merge map. -/
def resolveEntry (m : List (Nat × Nat)) (s : Nat) : List (Nat × Nat) :=
  match alookup s m with
  | none => m
  | some v =>
    let r := followChain s m s v
    setVals r.1 r.2 m

/-- Iterate chain resolution over a list of keys. -/
def resolvePass : List Nat → List (Nat × Nat) → List (Nat × Nat)
  | [], m => m
  | s :: rest, m => resolvePass rest (resolveEntry m s)

/-- The chain-resolution pass of lines 237-253: every entry of the merge
map is made to point directly at its ultimate target. -/
def resolveMerge (m : List (Nat × Nat)) : List (Nat × Nat) :=
  resolvePass (keysOf m) m

/-- The label rewrite a resolved merge map induces on a single label. -/
def fval (m : List (Nat × Nat)) (l : Nat) : Nat := (alookup l m).getD l

/-- Apply `fval` to every stored label. -/
def mapF (m sccs : List (Nat × Nat)) : List (Nat × Nat) :=
  sccs.map (fun p => (p.1, fval m p.2))

/-- The full-rescan relabeling pass of lines 257-263: walk every label
table entry, rewrite it when its label is a merge source, count rewrites
in `k`, and, when the reverse index is enabled, insert (new label, node)
for every entry. -/
def applyFullGo (m : List (Nat × Nat)) (ur : Bool) :
    List (Nat × Nat) → List (Nat × Nat) → Nat →
    List (Nat × Nat) × List (Nat × Nat) × Nat
  | [], s2, k => ([], s2, k)
  | p :: rest, s2, k =>
    match alookup p.2 m with
    | some t =>
      let s2' := if ur then (t, p.1) :: s2 else s2
      let r := applyFullGo m ur rest s2' (k + 1)
      ((p.1, t) :: r.1, r.2)
    | none =>
      let s2' := if ur then (p.2, p.1) :: s2 else s2
      let r := applyFullGo m ur rest s2' k
      ((p.1, p.2) :: r.1, r.2)

/-- Find the first reverse-index entry under key `src` and remove it,
returning the member node and the remaining index
(`sccs2.find` / `sccs2.erase(it)`). -/
def findRemove (src : Nat) : List (Nat × Nat) → Option (Nat × List (Nat × Nat))
  | [] => none
  | p :: rest =>
    if p.1 = src then some (p.2, rest)
    else
      match findRemove src rest with
      | none => none
      | some r => some (r.1, p :: r.2)

/-- Number of reverse-index entries under key `src`. -/
def countKey (src : Nat) (s2 : List (Nat × Nat)) : Nat :=
  s2.countP (fun p => p.1 == src)

/-- The do-while loop of lines 287-295: repeatedly pull a member of the
source label from the reverse index, rehome it under the target label,
and rewrite its entry in the label table.  Fuel `countKey src s2` is
exactly enough because the target label differs from the source. -/
def moveLoop : Nat → Nat → Nat → List (Nat × Nat) → List (Nat × Nat) →
    Nat → List (Nat × Nat) × List (Nat × Nat) × Nat
  | 0, _, _, sccs, s2, k => (sccs, s2, k)
  | fuel + 1, src, dst, sccs, s2, k =>
    match findRemove src s2 with
    | none => (sccs, s2, k)
    | some r => moveLoop fuel src dst (setVal r.1 dst sccs) ((dst, r.1) :: r.2) (k + 1)

/-- The indexed relabeling pass of lines 265-296: for every resolved
merge entry, move all members of the source label to the target label; a
source with no members is the fatal inconsistency of lines 281-286,
modelled exactly as the program behaves, by forcing `k = 0`. -/
def applyIndexed : List (Nat × Nat) → List (Nat × Nat) → List (Nat × Nat) →
    Nat → List (Nat × Nat) × List (Nat × Nat) × Nat
  | [], sccs, s2, k => (sccs, s2, k)
  | e :: rest, sccs, s2, k =>
    match findRemove e.1 s2 with
    | none => (sccs, s2, 0)
    | some _ =>
      let r := moveLoop (countKey e.1 s2) e.1 e.2 sccs s2 k
      applyIndexed rest r.1 r.2.1 r.2.2

/-- The mutable state of the iteration: live edges, label table, reverse
index. -/
structure St where
  edges : List (Nat × Nat)
  sccs : List (Nat × Nat)
  sccs2 : List (Nat × Nat)
deriving DecidableEq

/-- Result of one pass of the `while(1)` body. -/
inductive StepRes
  | converged (tbl : List (Nat × Nat))
  | error
  | running (st : St)
deriving DecidableEq

/-- One pass of the iteration loop (lines 207-304): scan the edges; if no
merges are pending the loop breaks (CONVERGED); otherwise resolve the
merge chains and apply them, with the full rescan when the reverse index
is empty and the indexed pass otherwise; `k = 0` after the pass is the
fatal inconsistency exit. -/
def step (ur : Bool) (st : St) : StepRes :=
  let sc := scanEdges st.sccs st.edges
  if sc.2 = [] then StepRes.converged st.sccs
  else
    let m := resolveMerge sc.2
    if st.sccs2 = [] then
      let r := applyFullGo m ur st.sccs [] 0
      if r.2.2 = 0 then StepRes.error else StepRes.running (St.mk sc.1 r.1 r.2.1)
    else
      let r := applyIndexed m st.sccs st.sccs2 0
      if r.2.2 = 0 then StepRes.error else StepRes.running (St.mk sc.1 r.1 r.2.1)

/-- Final outcome of the iteration loop; `j` counts completed iterations
as the program's variable `j` does. -/
inductive Outcome
  | converged (tbl : List (Nat × Nat)) (j : Nat)
  | error
  | outOfFuel
deriving DecidableEq

/-- The driver loop with fuel; `fuelBound` below always suffices. -/
def loop (ur : Bool) : Nat → St → Nat → Outcome
  | 0, _, _ => Outcome.outOfFuel
  | fuel + 1, st, j =>
    match step ur st with
    | StepRes.converged tbl => Outcome.converged tbl j
    | StepRes.error => Outcome.error
    | StepRes.running st' => loop ur fuel st' (j + 1)

/-- Iterate `step` a given number of running steps. -/
def stepN (ur : Bool) : Nat → St → Option St
  | 0, st => some st
  | n + 1, st =>
    match step ur st with
    | StepRes.running st' => stepN ur n st'
    | _ => none

/-- The state `main` enters the loop with: the edges just read, every
endpoint labelled by itself, an empty reverse index. -/
def initSt (es : List (Nat × Nat)) : St := St.mk es (buildSccs es []) []

/-- Enough fuel for the loop: the label sum strictly decreases at every
running step. -/
def fuelBound (es : List (Nat × Nat)) : Nat := 1 + sumVals (buildSccs es [])

/-- Adjacency in the undirected input graph (an edge in either stored
orientation). -/
def Adj (E : List (Nat × Nat)) (u v : Nat) : Prop := (u, v) ∈ E ∨ (v, u) ∈ E

/-- Connectivity in the undirected input graph. -/
inductive Reach (E : List (Nat × Nat)) : Nat → Nat → Prop
  | refl (u : Nat) : Reach E u u
  | step {u v w : Nat} : Adj E u v → Reach E v w → Reach E u w

/-- The reverse index is exactly the label table with the pairs swapped,
up to order: each node appears once, under its current label. -/
def RevOk (sccs s2 : List (Nat × Nat)) : Prop :=
  s2.Perm (sccs.map (fun p => (p.2, p.1)))

/-- The decidable state invariants maintained by the loop: unique label
table keys, every live edge endpoint present in the table, every stored
label itself a key no larger than its node, and a reverse index that is
either still unbuilt or consistent. -/
def GoodSt (st : St) : Prop :=
  NodupKeys st.sccs ∧
  (∀ e ∈ st.edges, e.1 ∈ keysOf st.sccs ∧ e.2 ∈ keysOf st.sccs) ∧
  (∀ p ∈ st.sccs, p.2 ∈ keysOf st.sccs) ∧
  (∀ p ∈ st.sccs, p.2 ≤ p.1) ∧
  (st.sccs2 = [] ∨ RevOk st.sccs st.sccs2)

/-- An input line as the external table reader classifies it. -/
inductive InLine
  | fields (a b : Int)
  | malformed
deriving DecidableEq

/-- Result of parsing one line. -/
inductive ParseRes
  | ok (u v : Nat)
  | overflow
  | bad
deriving DecidableEq

/-- Modelled from the spec: the `read_table2` line reader of the missing
header `read_table.h` parses two fields per line as unsigned 32-bit
integers with a range check; a negative or out-of-range value is the
recoverable `T_OVERFLOW` error, any other malformed line is a fatal
parse error distinct from `T_EOF`. -/
def parseLine : InLine → ParseRes
  | InLine.malformed => ParseRes.bad
  | InLine.fields a b =>
    if a < 0 ∨ (4294967296 : Int) ≤ a ∨ b < 0 ∨ (4294967296 : Int) ≤ b then
      ParseRes.overflow
    else ParseRes.ok a.toNat b.toNat

/-- Result of `read_graph`: the edge count together with the trace of
array writes (index, u, v), or the fatal-error outcome in which the
function reports the parse error and returns 0. -/
inductive ReadRes
  | ok (count : Nat) (stores : List (Nat × Nat × Nat))
  | fatal
deriving DecidableEq

/-- The loop of `read_graph` (lines 92-107).  Note that the capacity
parameter `N` of the C function is never consulted by its body: the loop
runs until end of input, writing edge `e` to index `i` and incrementing
`i` on every successful parse, skipping `T_OVERFLOW` lines, and aborting
on any other error. -/
def readGraphGo : List InLine → Nat → List (Nat × Nat × Nat) → ReadRes
  | [], i, acc => ReadRes.ok i acc.reverse
  | l :: rest, i, acc =>
    match parseLine l with
    | ParseRes.ok u v => readGraphGo rest (i + 1) ((i, u, v) :: acc)
    | ParseRes.overflow => readGraphGo rest i acc
    | ParseRes.bad => ReadRes.fatal

/-- The edges `main` receives from `read_graph`, `none` on a fatal parse
error (in which case `read_graph` returns 0 and `main` exits). -/
def readEdges (lines : List InLine) : Option (List (Nat × Nat)) :=
  match readGraphGo lines 0 [] with
  | ReadRes.ok _ st => some (st.map (fun w => (w.2.1, w.2.2)))
  | ReadRes.fatal => none

/-- Observable result of a run of `main`: the process exit status, the
(node, label) pairs written to standard output, and whether the
processing-error diagnostic of line 309 was emitted. -/
structure MainRes where
  exitCode : Nat
  out : List (Nat × Nat)
  errDiag : Bool
deriving DecidableEq

/-- The code after the loop (lines 306-318): when `j = 0` the program
prints the processing-error diagnostic and emits nothing, otherwise it
emits every (node, label) pair; either way it returns 0. -/
def mainFinish (oc : Outcome) : MainRes :=
  match oc with
  | Outcome.converged tbl j =>
    if j = 0 then MainRes.mk 0 [] true else MainRes.mk 0 tbl false
  | Outcome.error => MainRes.mk 0 [] true
  | Outcome.outOfFuel => MainRes.mk 0 [] true

/-- A run of `main` after the buffers exist: read the edges, exit with
status 1 when none were stored (line 178), otherwise iterate to the
outcome and emit. -/
def mainRun (ur : Bool) (lines : List InLine) : MainRes :=
  match readEdges lines with
  | none => MainRes.mk 1 [] false
  | some es =>
    if es.length = 0 then MainRes.mk 1 [] false
    else mainFinish (loop ur (fuelBound es) (initSt es) 0)

/-- Outcomes of the system calls the buffer setup performs. -/
structure FsEnv where
  openOk : Bool
  truncOk : Bool
  mmapOk : Bool
deriving DecidableEq

/-- Result of the buffer setup of lines 132-167: either a fatal exit with
the program's status code, or control falls through to reading; the flag
records whether the mapping actually succeeded. -/
inductive Setup
  | fatal (exitCode : Nat)
  | proceed (valid : Bool)
deriving DecidableEq

/-- Diagnostics the setup can print, one per cause. -/
inductive SetupDiag
  | noBufferSize
  | openFailed
  | truncateFailed
  | mmapFileFailed
  | mmapAnonFailed
deriving DecidableEq

/-- The buffer setup of `main` (lines 132-167), including its handling
of each failure: zero capacity and the anonymous-mapping failure return
distinct statuses, as do an existing file and a truncation failure; but
when the file-backed `mmap` fails the program only prints the diagnostic
and falls through with `buf = MAP_FAILED`. -/
def setupBuffers (n1 : Nat) (useFile : Bool) (env : FsEnv) :
    List SetupDiag × Setup :=
  if n1 = 0 then ([SetupDiag.noBufferSize], Setup.fatal 1)
  else if useFile then
    if env.openOk = false then ([SetupDiag.openFailed], Setup.fatal 2)
    else if env.truncOk = false then ([SetupDiag.truncateFailed], Setup.fatal 3)
    else if env.mmapOk = false then ([SetupDiag.mmapFileFailed], Setup.proceed false)
    else ([], Setup.proceed true)
  else if env.mmapOk = false then ([SetupDiag.mmapAnonFailed], Setup.fatal 11)
  else ([], Setup.proceed true)

/-! ### Association-list lemmas -/

theorem keysOf_nil : keysOf [] = [] := rfl

theorem keysOf_cons (p : Nat × Nat) (m : List (Nat × Nat)) :
    keysOf (p :: m) = p.1 :: keysOf m := rfl

theorem setVal_nil (k r : Nat) : setVal k r [] = [] := rfl

theorem setVal_cons (k r : Nat) (p : Nat × Nat) (m : List (Nat × Nat)) :
    setVal k r (p :: m) =
      (if p.1 = k then (k, r) else p) :: setVal k r m := by
  simp [setVal]

theorem alookup_eq_none {k : Nat} {m : List (Nat × Nat)} :
    alookup k m = none ↔ k ∉ keysOf m := by
  induction m with
  | nil => simp [alookup, keysOf]
  | cons p rest ih =>
    by_cases h : p.1 = k
    · simp [alookup, keysOf_cons, h]
    · simp only [alookup, keysOf_cons, h, if_false, List.mem_cons, ih]
      constructor
      · rintro hn (he | hm)
        · exact h he.symm
        · exact hn hm
      · intro hn hm
        exact hn (Or.inr hm)

theorem alookup_mem {k v : Nat} {m : List (Nat × Nat)}
    (h : alookup k m = some v) : (k, v) ∈ m := by
  induction m with
  | nil => simp [alookup] at h
  | cons p rest ih =>
    by_cases hp : p.1 = k
    · simp [alookup, hp] at h
      have : p = (k, v) := by
        cases p
        simp at hp h ⊢
        exact ⟨hp, h⟩
      exact this ▸ List.mem_cons_self _ _
    · simp [alookup, hp] at h
      exact List.mem_cons_of_mem _ (ih h)

theorem alookup_of_mem_keys {k : Nat} {m : List (Nat × Nat)}
    (h : k ∈ keysOf m) : ∃ v, alookup k m = some v := by
  cases hv : alookup k m with
  | none => exact absurd (alookup_eq_none.mp hv) (fun hn => hn h)
  | some v => exact ⟨v, rfl⟩

theorem mem_keysOf_of_alookup {k v : Nat} {m : List (Nat × Nat)}
    (h : alookup k m = some v) : k ∈ keysOf m := by
  by_contra hk
  rw [alookup_eq_none.mpr hk] at h
  exact Option.noConfusion h

theorem mem_keysOf {p : Nat × Nat} {m : List (Nat × Nat)} (h : p ∈ m) :
    p.1 ∈ keysOf m := List.mem_map_of_mem Prod.fst h

theorem alookup_of_mem {k v : Nat} {m : List (Nat × Nat)}
    (hnd : NodupKeys m) (h : (k, v) ∈ m) : alookup k m = some v := by
  induction m with
  | nil => simp at h
  | cons p rest ih =>
    rcases List.mem_cons.mp h with h1 | h2
    · simp [alookup, h1.symm]
    · have hk : k ∈ keysOf rest := mem_keysOf h2
      have hp : p.1 ≠ k := by
        intro he
        have := (List.nodup_cons.mp hnd).1
        rw [he] at this
        exact this hk
      have hnd' : NodupKeys rest := (List.nodup_cons.mp hnd).2
      simp [alookup, hp]
      exact ih hnd' h2

theorem keysOf_setVal (k r : Nat) (m : List (Nat × Nat)) :
    keysOf (setVal k r m) = keysOf m := by
  induction m with
  | nil => rfl
  | cons p rest ih =>
    rw [setVal_cons, keysOf_cons, keysOf_cons, ih]
    by_cases h : p.1 = k
    · simp [h]
    · simp [h]

theorem alookup_setVal_self (k r : Nat) (m : List (Nat × Nat)) :
    alookup k (setVal k r m) = (alookup k m).map (fun _ => r) := by
  induction m with
  | nil => rfl
  | cons p rest ih =>
    rw [setVal_cons]
    by_cases h : p.1 = k
    · simp [alookup, h]
    · simp only [alookup, h, if_false, if_neg h, ih]

theorem alookup_setVal_ne {k' k : Nat} (r : Nat) (m : List (Nat × Nat))
    (h : k' ≠ k) : alookup k' (setVal k r m) = alookup k' m := by
  induction m with
  | nil => rfl
  | cons p rest ih =>
    rw [setVal_cons]
    by_cases hp : p.1 = k
    · have hkk : ¬k = k' := fun he => h he.symm
      simp only [alookup, hp, if_true, hkk, if_false, ih]
    · simp only [alookup, if_neg hp, ih]

theorem setVal_of_not_mem {k : Nat} (r : Nat) {m : List (Nat × Nat)}
    (h : k ∉ keysOf m) : setVal k r m = m := by
  induction m with
  | nil => rfl
  | cons p rest ih =>
    rw [keysOf_cons, List.mem_cons] at h
    push_neg at h
    rw [setVal_cons, if_neg (fun he => h.1 he.symm), ih h.2]

theorem mem_setVal {p : Nat × Nat} {k r : Nat} {m : List (Nat × Nat)}
    (h : p ∈ setVal k r m) : (p ∈ m ∧ p.1 ≠ k) ∨ p = (k, r) := by
  rcases List.mem_map.mp h with ⟨q, hq, he⟩
  by_cases hk : q.1 = k
  · right
    simp [hk] at he
    exact he.symm
  · left
    simp [hk] at he
    exact ⟨he ▸ hq, he ▸ hk⟩

theorem mem_setVal_of_mem {p : Nat × Nat} {k : Nat} (r : Nat)
    {m : List (Nat × Nat)} (h : p ∈ m) (hne : p.1 ≠ k) :
    p ∈ setVal k r m := by
  have : p = (fun q => if q.1 = k then (k, r) else q) p := by simp [hne]
  rw [this]
  exact List.mem_map_of_mem _ h

/-! ### Merge-map recording lemmas -/

theorem mem_mergeAdd {p : Nat × Nat} {hi lo : Nat} {m : List (Nat × Nat)}
    (h : p ∈ mergeAdd hi lo m) : p ∈ m ∨ p = (hi, lo) := by
  cases hv : alookup hi m with
  | none =>
    simp only [mergeAdd, hv] at h
    rcases List.mem_append.mp h with h1 | h2
    · exact Or.inl h1
    · simp at h2
      exact Or.inr h2
  | some old =>
    simp only [mergeAdd, hv] at h
    by_cases hlt : lo < old
    · rw [if_pos hlt] at h
      rcases mem_setVal h with ⟨h1, _⟩ | h2
      · exact Or.inl h1
      · exact Or.inr h2
    · rw [if_neg hlt] at h
      exact Or.inl h

theorem keysOf_mergeAdd {hi lo : Nat} {m : List (Nat × Nat)} :
    keysOf (mergeAdd hi lo m) = keysOf m ∨
      keysOf (mergeAdd hi lo m) = keysOf m ++ [hi] := by
  cases hv : alookup hi m with
  | none =>
    right
    simp only [mergeAdd, hv]
    simp [keysOf]
  | some old =>
    left
    simp only [mergeAdd, hv]
    by_cases hlt : lo < old
    · rw [if_pos hlt]
      exact keysOf_setVal hi lo m
    · rw [if_neg hlt]

theorem nodupKeys_mergeAdd {hi lo : Nat} {m : List (Nat × Nat)}
    (h : NodupKeys m) : NodupKeys (mergeAdd hi lo m) := by
  cases hv : alookup hi m with
  | none =>
    have hni : hi ∉ keysOf m := alookup_eq_none.mp hv
    simp only [mergeAdd, hv]
    unfold NodupKeys at h ⊢
    have hk : keysOf (m ++ [(hi, lo)]) = keysOf m ++ [hi] := by simp [keysOf]
    rw [hk]
    simp [List.nodup_append, h]
    intro he
    exact hni he
  | some old =>
    simp only [mergeAdd, hv]
    by_cases hlt : lo < old
    · rw [if_pos hlt]
      unfold NodupKeys
      rw [keysOf_setVal]
      exact h
    · rw [if_neg hlt]
      exact h

theorem mergeAdd_ne_nil (hi lo : Nat) (m : List (Nat × Nat)) :
    mergeAdd hi lo m ≠ [] := by
  cases hv : alookup hi m with
  | none => simp [mergeAdd, hv]
  | some old =>
    have hm : m ≠ [] := by
      intro he
      rw [he] at hv
      exact Option.noConfusion hv
    simp only [mergeAdd, hv]
    by_cases hlt : lo < old
    · rw [if_pos hlt]
      cases m with
      | nil => exact absurd rfl hm
      | cons p rest => simp [setVal]
    · rw [if_neg hlt]
      exact hm

/-! ### Rewrite-function lemmas -/

theorem alookup_mapF (m sccs : List (Nat × Nat)) (x : Nat) :
    alookup x (mapF m sccs) = (alookup x sccs).map (fval m) := by
  induction sccs with
  | nil => rfl
  | cons p rest ih =>
    by_cases h : p.1 = x
    · simp [mapF, alookup, h]
    · simp only [mapF, List.map_cons, alookup, h, if_false, if_neg h]
      exact ih

theorem keysOf_mapF (m sccs : List (Nat × Nat)) :
    keysOf (mapF m sccs) = keysOf sccs := by
  simp [mapF, keysOf]

theorem mem_mapF {p : Nat × Nat} {m sccs : List (Nat × Nat)} :
    p ∈ mapF m sccs ↔ ∃ q ∈ sccs, p = (q.1, fval m q.2) := by
  simp only [mapF, List.mem_map]
  constructor
  · rintro ⟨q, hq, he⟩
    exact ⟨q, hq, he.symm⟩
  · rintro ⟨q, hq, he⟩
    exact ⟨q, hq, he.symm⟩

theorem fval_le {m : List (Nat × Nat)} (hdec : Decreasing m) (l : Nat) :
    fval m l ≤ l := by
  unfold fval
  cases hv : alookup l m with
  | none => simp
  | some t =>
    simp
    exact Nat.le_of_lt (hdec _ (alookup_mem hv))

theorem fval_lt {m : List (Nat × Nat)} (hdec : Decreasing m) {l : Nat}
    (h : l ∈ keysOf m) : fval m l < l := by
  rcases alookup_of_mem_keys h with ⟨v, hv⟩
  unfold fval
  rw [hv]
  exact hdec _ (alookup_mem hv)

theorem sumVals_mapF_le {m : List (Nat × Nat)} (hdec : Decreasing m)
    (sccs : List (Nat × Nat)) : sumVals (mapF m sccs) ≤ sumVals sccs := by
  induction sccs with
  | nil => simp [mapF, sumVals]
  | cons p rest ih =>
    simp only [mapF, List.map_cons, sumVals, List.map, List.sum_cons] at ih ⊢
    exact Nat.add_le_add (fval_le hdec p.2) ih

theorem sumVals_mapF_lt {m : List (Nat × Nat)} (hdec : Decreasing m)
    {sccs : List (Nat × Nat)} (h : ∃ p ∈ sccs, p.2 ∈ keysOf m) :
    sumVals (mapF m sccs) < sumVals sccs := by
  induction sccs with
  | nil => simp at h
  | cons p rest ih =>
    rcases h with ⟨q, hq, hk⟩
    rcases List.mem_cons.mp hq with h1 | h2
    · have h1' : fval m p.2 < p.2 := by
        rw [h1] at hk
        exact fval_lt hdec hk
      have h2' : sumVals (mapF m rest) ≤ sumVals rest := sumVals_mapF_le hdec rest
      simp only [mapF, List.map_cons, sumVals, List.map, List.sum_cons] at h2' ⊢
      omega
    · have h1' : fval m p.2 ≤ p.2 := fval_le hdec p.2
      have h2' : sumVals (mapF m rest) < sumVals rest := ih ⟨q, h2, hk⟩
      simp only [mapF, List.map_cons, sumVals, List.map, List.sum_cons] at h2' ⊢
      omega

/-! ### Chase lemmas -/

theorem chaseF_eq_of_lt {m : List (Nat × Nat)} (hdec : Decreasing m) :
    ∀ x fuel fuel', x < fuel → x < fuel' →
      chaseF fuel m x = chaseF fuel' m x := by
  intro x
  induction x using Nat.strong_induction_on with
  | _ x ih =>
    intro fuel fuel' hf hf'
    match fuel, fuel' with
    | f + 1, f' + 1 =>
      simp only [chaseF]
      cases hv : alookup x m with
      | none => rfl
      | some v =>
        have hvx : v < x := hdec _ (alookup_mem hv)
        exact ih v hvx f f' (by omega) (by omega)

theorem chase_of_none {m : List (Nat × Nat)} {x : Nat}
    (h : alookup x m = none) : chase m x = x := by
  unfold chase chaseF
  rw [h]

theorem chase_of_some {m : List (Nat × Nat)} (hdec : Decreasing m)
    {x v : Nat} (h : alookup x m = some v) : chase m x = chase m v := by
  have hvx : v < x := hdec _ (alookup_mem h)
  unfold chase
  conv_lhs => rw [show x + 1 = (x : Nat) + 1 from rfl]
  simp only [chaseF, h]
  exact chaseF_eq_of_lt hdec v x (v + 1) (by omega) (by omega)

theorem chase_fix {m : List (Nat × Nat)} (hdec : Decreasing m) (x : Nat) :
    alookup (chase m x) m = none := by
  induction x using Nat.strong_induction_on with
  | _ x ih =>
    cases hv : alookup x m with
    | none => rw [chase_of_none hv]; exact hv
    | some v =>
      rw [chase_of_some hdec hv]
      exact ih v (hdec _ (alookup_mem hv))

theorem chase_le {m : List (Nat × Nat)} (hdec : Decreasing m) (x : Nat) :
    chase m x ≤ x := by
  induction x using Nat.strong_induction_on with
  | _ x ih =>
    cases hv : alookup x m with
    | none => rw [chase_of_none hv]
    | some v =>
      have hvx : v < x := hdec _ (alookup_mem hv)
      rw [chase_of_some hdec hv]
      exact Nat.le_of_lt (Nat.lt_of_le_of_lt (ih v hvx) hvx)

theorem chase_mem {m : List (Nat × Nat)} (hdec : Decreasing m) (x : Nat) :
    chase m x = x ∨ ∃ p ∈ m, chase m x = p.2 := by
  induction x using Nat.strong_induction_on with
  | _ x ih =>
    cases hv : alookup x m with
    | none => exact Or.inl (chase_of_none hv)
    | some v =>
      have hvx : v < x := hdec _ (alookup_mem hv)
      rw [chase_of_some hdec hv]
      rcases ih v hvx with h1 | h2
      · exact Or.inr ⟨(x, v), alookup_mem hv, h1⟩
      · exact Or.inr h2

/-! ### Connectivity lemmas -/

theorem adj_symm {E : List (Nat × Nat)} {u v : Nat} (h : Adj E u v) :
    Adj E v u := h.elim Or.inr Or.inl

theorem Reach.trans {E : List (Nat × Nat)} {u v w : Nat}
    (h1 : Reach E u v) (h2 : Reach E v w) : Reach E u w := by
  induction h1 with
  | refl => exact h2
  | step ha _ ih => exact Reach.step ha (ih h2)

theorem reach_symm {E : List (Nat × Nat)} {u v : Nat}
    (h : Reach E u v) : Reach E v u := by
  induction h with
  | refl => exact Reach.refl _
  | step ha _ ih => exact ih.trans (Reach.step (adj_symm ha) (Reach.refl _))

theorem nodesOf_cons (e : Nat × Nat) (es : List (Nat × Nat)) :
    nodesOf (e :: es) = e.1 :: e.2 :: nodesOf es := rfl

theorem mem_nodesOf {x : Nat} {es : List (Nat × Nat)} :
    x ∈ nodesOf es ↔ ∃ e ∈ es, e.1 = x ∨ e.2 = x := by
  induction es with
  | nil => simp [nodesOf]
  | cons e rest ih =>
    rw [nodesOf_cons]
    simp only [List.mem_cons, ih]
    constructor
    · rintro (h1 | h2 | ⟨f, hf, hx⟩)
      · exact ⟨e, Or.inl rfl, Or.inl h1.symm⟩
      · exact ⟨e, Or.inl rfl, Or.inr h2.symm⟩
      · exact ⟨f, Or.inr hf, hx⟩
    · rintro ⟨f, hf1 | hf2, hx⟩
      · rcases hx with hx | hx
        · exact Or.inl (hf1 ▸ hx.symm)
        · exact Or.inr (Or.inl (hf1 ▸ hx.symm))
      · exact Or.inr (Or.inr ⟨f, hf2, hx⟩)

theorem reach_mem_nodes {E : List (Nat × Nat)} {u w : Nat}
    (h : Reach E u w) : w = u ∨ w ∈ nodesOf E := by
  induction h with
  | refl => exact Or.inl rfl
  | step ha _ ih =>
    rcases ih with h1 | h2
    · right
      rename_i u' v' w'
      rcases ha with he | he
      · exact mem_nodesOf.mpr ⟨_, he, Or.inr (by rw [h1])⟩
      · exact mem_nodesOf.mpr ⟨_, he, Or.inl (by rw [h1])⟩
    · exact Or.inr h2

/-! ### Label-table construction lemmas -/

theorem buildSccs_keys (es : List (Nat × Nat)) :
    ∀ t x, x ∈ keysOf (buildSccs es t) ↔ x ∈ keysOf t ∨ x ∈ nodesOf es := by
  induction es with
  | nil => intro t x; simp [buildSccs, nodesOf]
  | cons e rest ih =>
    intro t x
    simp only [buildSccs]
    rw [ih]
    have h1 : ∀ (t' : List (Nat × Nat)) (a : Nat),
        x ∈ keysOf (if (alookup a t').isSome then t' else t' ++ [(a, a)]) ↔
          x ∈ keysOf t' ∨ x = a := by
      intro t' a
      by_cases h : (alookup a t').isSome
      · rw [if_pos h]
        constructor
        · exact Or.inl
        · rintro (hh | rfl)
          · exact hh
          · rcases Option.isSome_iff_exists.mp h with ⟨v, hv⟩
            exact mem_keysOf_of_alookup hv
      · rw [if_neg h]
        simp [keysOf]
    rw [h1, h1]
    have h2 : x ∈ nodesOf (e :: rest) ↔ (x = e.1 ∨ x = e.2) ∨ x ∈ nodesOf rest := by
      rw [nodesOf_cons]
      simp [List.mem_cons, or_assoc]
    rw [h2]
    tauto

theorem buildSccs_nodup (es : List (Nat × Nat)) :
    ∀ t, NodupKeys t → NodupKeys (buildSccs es t) := by
  induction es with
  | nil => intro t h; exact h
  | cons e rest ih =>
    intro t h
    simp only [buildSccs]
    apply ih
    have h1 : ∀ (t' : List (Nat × Nat)) (a : Nat), NodupKeys t' →
        NodupKeys (if (alookup a t').isSome then t' else t' ++ [(a, a)]) := by
      intro t' a ht'
      by_cases hs : (alookup a t').isSome
      · rw [if_pos hs]; exact ht'
      · rw [if_neg hs]
        have hni : a ∉ keysOf t' := by
          intro hk
          rcases alookup_of_mem_keys hk with ⟨v, hv⟩
          rw [hv] at hs
          exact hs rfl
        unfold NodupKeys at ht' ⊢
        have : keysOf (t' ++ [(a, a)]) = keysOf t' ++ [a] := by simp [keysOf]
        rw [this]
        simp [List.nodup_append, ht']
        intro he
        exact hni he
    exact h1 _ _ (h1 _ _ h)

theorem buildSccs_diag (es : List (Nat × Nat)) :
    ∀ t, (∀ p ∈ t, p.2 = p.1) → ∀ p ∈ buildSccs es t, p.2 = p.1 := by
  induction es with
  | nil => intro t h; exact h
  | cons e rest ih =>
    intro t h
    simp only [buildSccs]
    apply ih
    have h1 : ∀ (t' : List (Nat × Nat)) (a : Nat), (∀ p ∈ t', p.2 = p.1) →
        ∀ p ∈ (if (alookup a t').isSome then t' else t' ++ [(a, a)]), p.2 = p.1 := by
      intro t' a ht' p hp
      by_cases hs : (alookup a t').isSome
      · rw [if_pos hs] at hp; exact ht' p hp
      · rw [if_neg hs] at hp
        rcases List.mem_append.mp hp with h1 | h2
        · exact ht' p h1
        · simp at h2
          rw [h2]
    exact h1 _ _ (h1 _ _ h)

/-! ### Swap-remove lemmas -/

theorem getLastD_irrel {l : List (Nat × Nat)} (h : l ≠ []) (d d' : Nat × Nat) :
    l.getLastD d = l.getLastD d' := by
  cases l with
  | nil => exact absurd rfl h
  | cons a rest => rw [List.getLastD_cons, List.getLastD_cons]

theorem dropLast_cons_ne {l : List (Nat × Nat)} (h : l ≠ []) (a : Nat × Nat) :
    (a :: l).dropLast = a :: l.dropLast := by
  cases l with
  | nil => exact absurd rfl h
  | cons b t => exact List.dropLast_cons₂

theorem getLastD_mem {l : List (Nat × Nat)} (h : l ≠ []) (d : Nat × Nat) :
    l.getLastD d ∈ l := by
  induction l generalizing d with
  | nil => exact absurd rfl h
  | cons a rest ih =>
    cases rest with
    | nil => simp [List.getLastD]
    | cons b t =>
      rw [List.getLastD_cons]
      exact List.mem_cons_of_mem _ (ih (by simp) a)

theorem mem_dropLast_or {e : Nat × Nat} {l : List (Nat × Nat)} (d : Nat × Nat)
    (h : e ∈ l) : e ∈ l.dropLast ∨ e = l.getLastD d := by
  induction l generalizing d with
  | nil => simp at h
  | cons a rest ih =>
    cases rest with
    | nil =>
      simp at h
      right
      simp [List.getLastD, h]
    | cons b t =>
      rcases List.mem_cons.mp h with h1 | h2
      · left
        rw [List.dropLast_cons₂]
        exact h1 ▸ List.mem_cons_self _ _
      · rcases ih a h2 with h3 | h3
        · left
          rw [List.dropLast_cons₂]
          exact List.mem_cons_of_mem _ h3
        · right
          rw [List.getLastD_cons]
          exact h3

theorem length_swapRemove {es : List (Nat × Nat)} {i : Nat}
    (h : i < es.length) : (swapRemove es i).length = es.length - 1 := by
  simp [swapRemove]

theorem mem_swapRemove {e : Nat × Nat} {es : List (Nat × Nat)} {i : Nat}
    (hi : i < es.length) (h : e ∈ swapRemove es i) : e ∈ es := by
  have h1 : e ∈ es.set i (es.getLastD (0, 0)) :=
    List.dropLast_sublist _ |>.mem h
  rcases List.mem_or_eq_of_mem_set h1 with h2 | h2
  · exact h2
  · have hne : es ≠ [] := by
      intro heq
      rw [heq] at hi
      simp at hi
    exact h2 ▸ getLastD_mem hne _

theorem swapRemove_cons_succ {rest : List (Nat × Nat)} {j : Nat}
    (hj : j < rest.length) (a : Nat × Nat) :
    swapRemove (a :: rest) (j + 1) = a :: swapRemove rest j := by
  have hrne : rest ≠ [] := by
    intro heq
    rw [heq] at hj
    simp at hj
  have hlast : (a :: rest).getLastD (0, 0) = rest.getLastD (0, 0) := by
    rw [List.getLastD_cons]
    exact getLastD_irrel hrne a (0, 0)
  have hsetne : rest.set j (rest.getLastD (0, 0)) ≠ [] := by
    intro heq
    have hl := congrArg List.length heq
    simp at hl
    rw [hl] at hj
    simp at hj
  unfold swapRemove
  rw [List.set_cons_succ, hlast, dropLast_cons_ne hsetne]

theorem swapRemove_cons_zero {rest : List (Nat × Nat)} (a : Nat × Nat)
    (h : rest ≠ []) :
    swapRemove (a :: rest) 0 = rest.getLastD (0, 0) :: rest.dropLast := by
  have hlast : (a :: rest).getLastD (0, 0) = rest.getLastD (0, 0) := by
    rw [List.getLastD_cons]
    exact getLastD_irrel h a (0, 0)
  unfold swapRemove
  rw [List.set_cons_zero, hlast, dropLast_cons_ne h]

theorem mem_swapRemove_or {e : Nat × Nat} {es : List (Nat × Nat)} {i : Nat}
    (hi : i < es.length) (h : e ∈ es) :
    e ∈ swapRemove es i ∨ e = es.get ⟨i, hi⟩ := by
  induction es generalizing i with
  | nil => simp at h
  | cons a rest ih =>
    cases i with
    | zero =>
      rcases List.mem_cons.mp h with h1 | h2
      · right
        simp [h1]
      · left
        have hrne : rest ≠ [] := List.ne_nil_of_mem h2
        rw [swapRemove_cons_zero a hrne]
        rcases mem_dropLast_or (0, 0) h2 with h3 | h3
        · exact List.mem_cons_of_mem _ h3
        · exact h3 ▸ List.mem_cons_self _ _
    | succ j =>
      have hj : j < rest.length := by
        simp at hi
        omega
      rw [swapRemove_cons_succ hj a]
      rcases List.mem_cons.mp h with h1 | h2
      · exact Or.inl (h1 ▸ List.mem_cons_self _ _)
      · rcases ih hj h2 with h3 | h3
        · exact Or.inl (List.mem_cons_of_mem _ h3)
        · right
          simpa using h3

/-! ### Scan-pass lemmas -/

theorem scanGo_zero (sccs es : List (Nat × Nat)) (i : Nat)
    (m : List (Nat × Nat)) : scanGo sccs 0 es i m = (es, m) := rfl

theorem scanGo_succ_lt (sccs : List (Nat × Nat)) {es : List (Nat × Nat)}
    {i : Nat} (h : i < es.length) (fuel : Nat) (m : List (Nat × Nat)) :
    scanGo sccs (fuel + 1) es i m =
      if getL sccs (es.get ⟨i, h⟩).1 = getL sccs (es.get ⟨i, h⟩).2 then
        scanGo sccs fuel (swapRemove es i) i m
      else
        scanGo sccs fuel es (i + 1)
          (mergeAdd
            (max (getL sccs (es.get ⟨i, h⟩).1) (getL sccs (es.get ⟨i, h⟩).2))
            (min (getL sccs (es.get ⟨i, h⟩).1) (getL sccs (es.get ⟨i, h⟩).2))
            m) := by
  simp only [scanGo, h, dif_pos]

theorem scanGo_succ_ge (sccs : List (Nat × Nat)) {es : List (Nat × Nat)}
    {i : Nat} (h : ¬i < es.length) (fuel : Nat) (m : List (Nat × Nat)) :
    scanGo sccs (fuel + 1) es i m = (es, m) := by
  simp only [scanGo, h, dif_neg, not_false_iff]

theorem scanGo_merge_spec (sccs E : List (Nat × Nat)) :
    ∀ fuel es i m, (∀ e ∈ es, e ∈ E) →
      ∀ p ∈ (scanGo sccs fuel es i m).2, p ∈ m ∨
        ∃ e ∈ E, getL sccs e.1 ≠ getL sccs e.2 ∧
          p.1 = max (getL sccs e.1) (getL sccs e.2) ∧
          p.2 = min (getL sccs e.1) (getL sccs e.2) := by
  intro fuel
  induction fuel with
  | zero =>
    intro es i m _ p hp
    rw [scanGo_zero] at hp
    exact Or.inl hp
  | succ f ih =>
    intro es i m hes p hp
    by_cases h : i < es.length
    · rw [scanGo_succ_lt sccs h] at hp
      by_cases heq : getL sccs (es.get ⟨i, h⟩).1 = getL sccs (es.get ⟨i, h⟩).2
      · rw [if_pos heq] at hp
        exact ih _ _ _ (fun e he => hes e (mem_swapRemove h he)) p hp
      · rw [if_neg heq] at hp
        rcases ih _ _ _ hes p hp with h1 | h2
        · rcases mem_mergeAdd h1 with h3 | h3
          · exact Or.inl h3
          · right
            refine ⟨es.get ⟨i, h⟩, hes _ (es.get_mem _ _), heq, ?_, ?_⟩
            · rw [h3]
            · rw [h3]
        · exact Or.inr h2
    · rw [scanGo_succ_ge sccs h] at hp
      exact Or.inl hp

theorem scanGo_merge_nodup (sccs : List (Nat × Nat)) :
    ∀ fuel es i m, NodupKeys m → NodupKeys (scanGo sccs fuel es i m).2 := by
  intro fuel
  induction fuel with
  | zero =>
    intro es i m hm
    rw [scanGo_zero]
    exact hm
  | succ f ih =>
    intro es i m hm
    by_cases h : i < es.length
    · rw [scanGo_succ_lt sccs h]
      by_cases heq : getL sccs (es.get ⟨i, h⟩).1 = getL sccs (es.get ⟨i, h⟩).2
      · rw [if_pos heq]
        exact ih _ _ _ hm
      · rw [if_neg heq]
        exact ih _ _ _ (nodupKeys_mergeAdd hm)
    · rw [scanGo_succ_ge sccs h]
      exact hm

theorem scanGo_edges_subset (sccs : List (Nat × Nat)) :
    ∀ fuel es i m, ∀ e ∈ (scanGo sccs fuel es i m).1, e ∈ es := by
  intro fuel
  induction fuel with
  | zero =>
    intro es i m e he
    rw [scanGo_zero] at he
    exact he
  | succ f ih =>
    intro es i m e he
    by_cases h : i < es.length
    · rw [scanGo_succ_lt sccs h] at he
      by_cases heq : getL sccs (es.get ⟨i, h⟩).1 = getL sccs (es.get ⟨i, h⟩).2
      · rw [if_pos heq] at he
        exact mem_swapRemove h (ih _ _ _ e he)
      · rw [if_neg heq] at he
        exact ih _ _ _ e he
    · rw [scanGo_succ_ge sccs h] at he
      exact he

theorem scanGo_edges_cover (sccs : List (Nat × Nat)) :
    ∀ fuel es i m, ∀ e ∈ es,
      e ∈ (scanGo sccs fuel es i m).1 ∨ getL sccs e.1 = getL sccs e.2 := by
  intro fuel
  induction fuel with
  | zero =>
    intro es i m e he
    rw [scanGo_zero]
    exact Or.inl he
  | succ f ih =>
    intro es i m e he
    by_cases h : i < es.length
    · rw [scanGo_succ_lt sccs h]
      by_cases heq : getL sccs (es.get ⟨i, h⟩).1 = getL sccs (es.get ⟨i, h⟩).2
      · rw [if_pos heq]
        rcases mem_swapRemove_or h he with h1 | h1
        · exact ih _ _ _ e h1
        · right
          rw [h1]
          exact heq
      · rw [if_neg heq]
        exact ih _ _ _ e he
    · rw [scanGo_succ_ge sccs h]
      exact Or.inl he

theorem scanGo_merge_nonempty (sccs : List (Nat × Nat)) :
    ∀ fuel es i m, m ≠ [] → (scanGo sccs fuel es i m).2 ≠ [] := by
  intro fuel
  induction fuel with
  | zero =>
    intro es i m hm
    rw [scanGo_zero]
    exact hm
  | succ f ih =>
    intro es i m hm
    by_cases h : i < es.length
    · rw [scanGo_succ_lt sccs h]
      by_cases heq : getL sccs (es.get ⟨i, h⟩).1 = getL sccs (es.get ⟨i, h⟩).2
      · rw [if_pos heq]
        exact ih _ _ _ hm
      · rw [if_neg heq]
        exact ih _ _ _ (mergeAdd_ne_nil _ _ _)
    · rw [scanGo_succ_ge sccs h]
      exact hm

theorem scanGo_empty_all_equal (sccs : List (Nat × Nat)) :
    ∀ fuel es, es.length < fuel → (scanGo sccs fuel es 0 []).2 = [] →
      ∀ e ∈ es, getL sccs e.1 = getL sccs e.2 := by
  intro fuel
  induction fuel with
  | zero =>
    intro es hlen
    omega
  | succ f ih =>
    intro es hlen hm e he
    by_cases h : 0 < es.length
    · rw [scanGo_succ_lt sccs h] at hm
      by_cases heq : getL sccs (es.get ⟨0, h⟩).1 = getL sccs (es.get ⟨0, h⟩).2
      · rw [if_pos heq] at hm
        have hlen' : (swapRemove es 0).length < f := by
          rw [length_swapRemove h]
          omega
        rcases mem_swapRemove_or h he with h1 | h1
        · exact ih _ hlen' hm e h1
        · rw [h1]
          exact heq
      · rw [if_neg heq] at hm
        exact absurd hm (scanGo_merge_nonempty sccs f _ _ _ (mergeAdd_ne_nil _ _ _))
    · have : es = [] := List.length_eq_zero.mp (by omega)
      rw [this] at he
      simp at he

theorem scanEdges_merge_spec {sccs E es : List (Nat × Nat)}
    (hes : ∀ e ∈ es, e ∈ E) :
    ∀ p ∈ (scanEdges sccs es).2,
      ∃ e ∈ E, getL sccs e.1 ≠ getL sccs e.2 ∧
        p.1 = max (getL sccs e.1) (getL sccs e.2) ∧
        p.2 = min (getL sccs e.1) (getL sccs e.2) := by
  intro p hp
  rcases scanGo_merge_spec sccs E _ es 0 [] hes p hp with h1 | h2
  · simp at h1
  · exact h2

theorem scanEdges_merge_decreasing {sccs es : List (Nat × Nat)} :
    Decreasing (scanEdges sccs es).2 := by
  intro p hp
  rcases scanEdges_merge_spec (fun e he => he) p hp with ⟨e, _, hne, h1, h2⟩
  rw [h1, h2]
  rcases Nat.lt_or_ge (getL sccs e.1) (getL sccs e.2) with h | h
  · rw [Nat.max_comm, Nat.max_eq_left (Nat.le_of_lt h), Nat.min_eq_left (Nat.le_of_lt h)]
    exact h
  · have hlt : getL sccs e.2 < getL sccs e.1 := by
      rcases Nat.lt_or_eq_of_le h with h' | h'
      · exact h'
      · exact absurd h'.symm hne
    rw [Nat.max_eq_left h, Nat.min_comm, Nat.min_eq_left h]
    exact hlt

theorem scanEdges_merge_nodup (sccs es : List (Nat × Nat)) :
    NodupKeys (scanEdges sccs es).2 :=
  scanGo_merge_nodup sccs _ es 0 [] List.nodup_nil

theorem scanEdges_edges_subset {sccs es : List (Nat × Nat)} :
    ∀ e ∈ (scanEdges sccs es).1, e ∈ es :=
  scanGo_edges_subset sccs _ es 0 []

theorem scanEdges_edges_cover {sccs es : List (Nat × Nat)} :
    ∀ e ∈ es, e ∈ (scanEdges sccs es).1 ∨ getL sccs e.1 = getL sccs e.2 :=
  scanGo_edges_cover sccs _ es 0 []

theorem scanEdges_empty_all_equal {sccs es : List (Nat × Nat)}
    (h : (scanEdges sccs es).2 = []) :
    ∀ e ∈ es, getL sccs e.1 = getL sccs e.2 :=
  scanGo_empty_all_equal sccs _ es (Nat.lt_succ_self _) h

/-! ### Chain-resolution lemmas -/

theorem followChain_spec {m : List (Nat × Nat)} (hdec : Decreasing m) :
    ∀ fuel cur v, v < fuel → alookup cur m = some v →
      (followChain fuel m cur v).2 = chase m cur ∧
      ∀ k ∈ (followChain fuel m cur v).1,
        chase m k = chase m cur ∧ k ∈ keysOf m := by
  intro fuel
  induction fuel with
  | zero =>
    intro cur v hv
    omega
  | succ f ih =>
    intro cur v hv hcur
    cases hv' : alookup v m with
    | none =>
      simp only [followChain, hv']
      refine ⟨?_, by simp⟩
      rw [chase_of_some hdec hcur, chase_of_none hv']
    | some v' =>
      have hvv : v' < v := hdec _ (alookup_mem hv')
      have hstep := ih v v' (by omega) hv'
      simp only [followChain, hv']
      constructor
      · rw [hstep.1, chase_of_some hdec hcur]
      · intro k hk
        rcases List.mem_cons.mp hk with h1 | h2
        · exact ⟨by rw [h1], h1 ▸ mem_keysOf_of_alookup hcur⟩
        · have hkk := hstep.2 k h2
          refine ⟨?_, hkk.2⟩
          rw [hkk.1, chase_of_some hdec hcur]

theorem followChain_of_none {m' : List (Nat × Nat)} {v : Nat}
    (hv' : alookup v m' = none) {fuel : Nat} (hf : 0 < fuel) (cur : Nat) :
    followChain fuel m' cur v = ([], v) := by
  cases fuel with
  | zero => omega
  | succ f => simp only [followChain, hv']

theorem followChain_head_mem {m' : List (Nat × Nat)} {v v' : Nat}
    (hv' : alookup v m' = some v') {fuel : Nat} (hf : 0 < fuel) (cur : Nat) :
    cur ∈ (followChain fuel m' cur v).1 := by
  cases fuel with
  | zero => omega
  | succ f =>
    simp only [followChain, hv']
    exact List.mem_cons_self _ _

theorem setVal_chase {m : List (Nat × Nat)} (hdec : Decreasing m) {k : Nat}
    (hk : k ∈ keysOf m) :
    Decreasing (setVal k (chase m k) m) ∧
    keysOf (setVal k (chase m k) m) = keysOf m ∧
    ∀ x, chase (setVal k (chase m k) m) x = chase m x := by
  rcases alookup_of_mem_keys hk with ⟨vk, hvk⟩
  have hvkk : vk < k := hdec _ (alookup_mem hvk)
  have hck : chase m k < k :=
    Nat.lt_of_le_of_lt (by rw [chase_of_some hdec hvk]; exact chase_le hdec vk) hvkk
  have hdec' : Decreasing (setVal k (chase m k) m) := by
    intro p hp
    rcases mem_setVal hp with ⟨h1, _⟩ | h1
    · exact hdec _ h1
    · rw [h1]
      exact hck
  refine ⟨hdec', keysOf_setVal _ _ _, ?_⟩
  intro x
  induction x using Nat.strong_induction_on with
  | _ x ih =>
    by_cases hx : x = k
    · subst hx
      have hlk : alookup x (setVal x (chase m x) m) = some (chase m x) := by
        rw [alookup_setVal_self, hvk]
        rfl
      rw [chase_of_some hdec' hlk]
      have hfix : alookup (chase m x) m = none := chase_fix hdec x
      have hne : chase m x ≠ x := Nat.ne_of_lt hck
      have : alookup (chase m x) (setVal x (chase m x) m) = none := by
        rw [alookup_setVal_ne _ _ hne]
        exact hfix
      rw [chase_of_none this]
    · have hlk : alookup x (setVal k (chase m k) m) = alookup x m :=
        alookup_setVal_ne _ _ hx
      cases hv : alookup x m with
      | none =>
        rw [chase_of_none (hlk.trans hv), chase_of_none hv]
      | some v =>
        have hvx : v < x := hdec _ (alookup_mem hv)
        rw [chase_of_some hdec' (hlk.trans hv), chase_of_some hdec hv]
        exact ih v hvx

theorem setVals_nil (r : Nat) (m' : List (Nat × Nat)) :
    setVals [] r m' = m' := rfl

theorem setVals_cons (k0 : Nat) (rest : List Nat) (r : Nat)
    (m' : List (Nat × Nat)) :
    setVals (k0 :: rest) r m' = setVals rest r (setVal k0 r m') := by
  unfold setVals
  rw [List.foldl_cons]

theorem setVals_lookup_not_mem {k : Nat} (r : Nat) :
    ∀ ks (m' : List (Nat × Nat)), k ∉ ks →
      alookup k (setVals ks r m') = alookup k m' := by
  intro ks
  induction ks with
  | nil => intro m' _; rfl
  | cons k0 rest ih =>
    intro m' hk
    have hne : k ≠ k0 := fun he => hk (he ▸ List.mem_cons_self _ _)
    have hrest : k ∉ rest := fun he => hk (List.mem_cons_of_mem _ he)
    rw [setVals_cons, ih _ hrest, alookup_setVal_ne _ _ hne]

theorem setVals_lookup_mem {k : Nat} (r : Nat) :
    ∀ ks (m' : List (Nat × Nat)), k ∈ keysOf m' → k ∈ ks →
      alookup k (setVals ks r m') = some r := by
  intro ks
  induction ks with
  | nil => intro m' _ h; simp at h
  | cons k0 rest ih =>
    intro m' hkeys hk
    rw [setVals_cons]
    by_cases hmem : k ∈ rest
    · exact ih _ (by rw [keysOf_setVal]; exact hkeys) hmem
    · have hke : k = k0 := by
        rcases List.mem_cons.mp hk with h1 | h2
        · exact h1
        · exact absurd h2 hmem
      subst hke
      have h1 : alookup k (setVal k r m') = some r := by
        rcases alookup_of_mem_keys hkeys with ⟨v, hv⟩
        rw [alookup_setVal_self, hv]
        rfl
      rw [setVals_lookup_not_mem r rest _ hmem, h1]

theorem setVals_spec {m₀ : List (Nat × Nat)} (hdec₀ : Decreasing m₀) (r : Nat) :
    ∀ ks m', Decreasing m' → keysOf m' = keysOf m₀ →
      (∀ x, chase m' x = chase m₀ x) →
      (∀ k ∈ ks, k ∈ keysOf m₀ ∧ chase m₀ k = r) →
      Decreasing (setVals ks r m') ∧
      keysOf (setVals ks r m') = keysOf m₀ ∧
      (∀ x, chase (setVals ks r m') x = chase m₀ x) := by
  intro ks
  induction ks with
  | nil =>
    intro m' h1 h2 h3 _
    exact ⟨h1, h2, h3⟩
  | cons k0 rest ih =>
    intro m' h1 h2 h3 hks
    have hk0 : k0 ∈ keysOf m' := by
      rw [h2]
      exact (hks k0 (List.mem_cons_self _ _)).1
    have hr : chase m' k0 = r := by
      rw [h3]
      exact (hks k0 (List.mem_cons_self _ _)).2
    have hstep := setVal_chase h1 hk0
    rw [hr] at hstep
    rw [setVals_cons]
    refine ih _ hstep.1 (hstep.2.1.trans h2) (fun x => (hstep.2.2 x).trans (h3 x)) ?_
    intro k hk
    exact hks k (List.mem_cons_of_mem _ hk)

theorem resolveEntry_spec {m₀ : List (Nat × Nat)} (hdec₀ : Decreasing m₀)
    (s : Nat) :
    ∀ m', Decreasing m' → keysOf m' = keysOf m₀ →
      (∀ x, chase m' x = chase m₀ x) →
      Decreasing (resolveEntry m' s) ∧
      keysOf (resolveEntry m' s) = keysOf m₀ ∧
      (∀ x, chase (resolveEntry m' s) x = chase m₀ x) ∧
      (s ∈ keysOf m₀ → alookup s (resolveEntry m' s) = some (chase m₀ s)) ∧
      (∀ t, alookup t m' = some (chase m₀ t) →
        alookup t (resolveEntry m' s) = some (chase m₀ t)) := by
  intro m' h1 h2 h3
  cases hv : alookup s m' with
  | none =>
    have hns : s ∉ keysOf m₀ := by
      rw [← h2]
      exact alookup_eq_none.mp hv
    simp only [resolveEntry, hv]
    exact ⟨h1, h2, h3, fun hs => absurd hs hns, fun t ht => ht⟩
  | some v =>
    have hvs : v < s := h1 _ (alookup_mem hv)
    have hfc := followChain_spec h1 s s v (by omega) hv
    have hks : ∀ k ∈ (followChain s m' s v).1,
        k ∈ keysOf m₀ ∧ chase m₀ k = (followChain s m' s v).2 := by
      intro k hk
      rcases hfc.2 k hk with ⟨hc, hmem⟩
      constructor
      · rw [← h2]
        exact hmem
      · rw [← h3, hc, hfc.1, h3]
    have hsv := setVals_spec hdec₀ (followChain s m' s v).2 (followChain s m' s v).1
      m' h1 h2 h3 hks
    simp only [resolveEntry, hv]
    have hrs : (followChain s m' s v).2 = chase m₀ s := by
      rw [hfc.1, h3]
    refine ⟨hsv.1, hsv.2.1, hsv.2.2, ?_, ?_⟩
    · intro hs
      cases hv' : alookup v m' with
      | none =>
        have hfc0 : followChain s m' s v = ([], v) :=
          followChain_of_none hv' (by omega) s
        rw [hfc0, setVals_nil, hv]
        have hcv : chase m₀ s = v := by
          rw [← h3, chase_of_some h1 hv, chase_of_none hv']
        rw [hcv]
      | some v' =>
        have hsmem : s ∈ (followChain s m' s v).1 :=
          followChain_head_mem hv' (by omega) s
        have hlk := setVals_lookup_mem (followChain s m' s v).2
          (followChain s m' s v).1 m' (by rw [h2]; exact hs) hsmem
        rw [hlk, hrs]
    · intro t ht
      by_cases htm : t ∈ (followChain s m' s v).1
      · have := setVals_lookup_mem (followChain s m' s v).2
          (followChain s m' s v).1 m' (mem_keysOf_of_alookup ht) htm
        rw [this]
        rcases hfc.2 t htm with ⟨hc, _⟩
        have : (followChain s m' s v).2 = chase m₀ t := by
          rw [hfc.1, ← hc, h3]
        rw [this]
      · rw [setVals_lookup_not_mem _ _ _ htm]
        exact ht

theorem resolvePass_spec {m₀ : List (Nat × Nat)} (hdec₀ : Decreasing m₀) :
    ∀ ss m', Decreasing m' → keysOf m' = keysOf m₀ →
      (∀ x, chase m' x = chase m₀ x) →
      Decreasing (resolvePass ss m') ∧
      keysOf (resolvePass ss m') = keysOf m₀ ∧
      (∀ x, chase (resolvePass ss m') x = chase m₀ x) ∧
      (∀ s ∈ ss, s ∈ keysOf m₀ →
        alookup s (resolvePass ss m') = some (chase m₀ s)) ∧
      (∀ t, alookup t m' = some (chase m₀ t) →
        alookup t (resolvePass ss m') = some (chase m₀ t)) := by
  intro ss
  induction ss with
  | nil =>
    intro m' h1 h2 h3
    exact ⟨h1, h2, h3, by simp, fun t ht => ht⟩
  | cons s0 rest ih =>
    intro m' h1 h2 h3
    have hre := resolveEntry_spec hdec₀ s0 m' h1 h2 h3
    have hrest := ih (resolveEntry m' s0) hre.1 hre.2.1 hre.2.2.1
    simp only [resolvePass]
    refine ⟨hrest.1, hrest.2.1, hrest.2.2.1, ?_, ?_⟩
    · intro s hs hsk
      rcases List.mem_cons.mp hs with h4 | h4
      · subst h4
        exact hrest.2.2.2.2 s (hre.2.2.2.1 hsk)
      · exact hrest.2.2.2.1 s h4 hsk
    · intro t ht
      exact hrest.2.2.2.2 t (hre.2.2.2.2 t ht)

theorem resolveMerge_spec {m : List (Nat × Nat)} (hdec : Decreasing m) :
    Decreasing (resolveMerge m) ∧
    keysOf (resolveMerge m) = keysOf m ∧
    (∀ x, chase (resolveMerge m) x = chase m x) ∧
    (∀ s ∈ keysOf m, alookup s (resolveMerge m) = some (chase m s)) := by
  have h := resolvePass_spec hdec (keysOf m) m hdec rfl (fun x => rfl)
  exact ⟨h.1, h.2.1, h.2.2.1, fun s hs => h.2.2.2.1 s hs hs⟩

theorem chase_reach {m E : List (Nat × Nat)} (hdec : Decreasing m)
    (hlink : ∀ p ∈ m, Reach E p.1 p.2) (x : Nat) : Reach E x (chase m x) := by
  induction x using Nat.strong_induction_on with
  | _ x ih =>
    cases hv : alookup x m with
    | none =>
      rw [chase_of_none hv]
      exact Reach.refl x
    | some v =>
      rw [chase_of_some hdec hv]
      exact (hlink _ (alookup_mem hv)).trans (ih v (hdec _ (alookup_mem hv)))


/-! ### Full-rescan relabeling lemmas -/

theorem map_swap_swap (l : List (Nat × Nat)) :
    (l.map (fun p => (p.2, p.1))).map (fun p => (p.2, p.1)) = l := by
  induction l with
  | nil => rfl
  | cons p rest ih => simp [ih]

theorem applyFullGo_spec (m : List (Nat × Nat)) (ur : Bool) :
    ∀ sccs s2 k,
      (applyFullGo m ur sccs s2 k).1 = mapF m sccs ∧
      (applyFullGo m ur sccs s2 k).2.2 =
        k + sccs.countP (fun p => (alookup p.2 m).isSome) ∧
      (applyFullGo m ur sccs s2 k).2.1 =
        if ur then
          (mapF m sccs).reverse.map (fun p => (p.2, p.1)) ++ s2
        else s2 := by
  intro sccs
  induction sccs with
  | nil =>
    intro s2 k
    refine ⟨rfl, by simp [applyFullGo], ?_⟩
    by_cases h : ur
    · simp [applyFullGo, mapF, h]
    · simp [applyFullGo, mapF, h]
  | cons p rest ih =>
    intro s2 k
    cases hv : alookup p.2 m with
    | some t =>
      have hf : fval m p.2 = t := by
        unfold fval
        rw [hv]
        rfl
      have hr := ih (if ur then (t, p.1) :: s2 else s2) (k + 1)
      simp only [applyFullGo, hv] at hr ⊢
      refine ⟨?_, ?_, ?_⟩
      · rw [hr.1]
        show (p.1, t) :: mapF m rest = mapF m (p :: rest)
        unfold mapF
        rw [List.map_cons, hf]
      · rw [hr.2.1]
        rw [List.countP_cons]
        simp [hv]
        omega
      · rw [hr.2.2]
        by_cases h : ur
        · simp only [h, if_true]
          have hm : mapF m (p :: rest) = (p.1, t) :: mapF m rest := by
            unfold mapF
            rw [List.map_cons, hf]
          rw [hm, List.reverse_cons, List.map_append]
          simp
        · simp [h]
    | none =>
      have hf : fval m p.2 = p.2 := by
        unfold fval
        rw [hv]
        rfl
      have hr := ih (if ur then (p.2, p.1) :: s2 else s2) k
      simp only [applyFullGo, hv] at hr ⊢
      refine ⟨?_, ?_, ?_⟩
      · rw [hr.1]
        show (p.1, p.2) :: mapF m rest = mapF m (p :: rest)
        unfold mapF
        rw [List.map_cons, hf]
      · rw [hr.2.1]
        rw [List.countP_cons]
        simp [hv]
      · rw [hr.2.2]
        by_cases h : ur
        · simp only [h, if_true]
          have hm : mapF m (p :: rest) = (p.1, p.2) :: mapF m rest := by
            unfold mapF
            rw [List.map_cons, hf]
          rw [hm, List.reverse_cons, List.map_append]
          simp
        · simp [h]

theorem applyFull_revOk (m sccs : List (Nat × Nat)) :
    RevOk (mapF m sccs)
      ((mapF m sccs).reverse.map (fun p => (p.2, p.1)) ++ []) := by
  unfold RevOk
  rw [List.append_nil, List.map_reverse]
  exact List.reverse_perm _

/-! ### Indexed relabeling lemmas -/

theorem countKey_cons (src : Nat) (p : Nat × Nat) (rest : List (Nat × Nat)) :
    countKey src (p :: rest) =
      countKey src rest + if p.1 = src then 1 else 0 := by
  unfold countKey
  rw [List.countP_cons]
  by_cases h : p.1 = src
  · simp [h]
  · simp [h]

theorem countKey_pos {src : Nat} {s2 : List (Nat × Nat)} :
    0 < countKey src s2 ↔ ∃ p ∈ s2, p.1 = src := by
  unfold countKey
  rw [List.countP_pos_iff]
  constructor
  · rintro ⟨p, hp, he⟩
    exact ⟨p, hp, by simpa using he⟩
  · rintro ⟨p, hp, he⟩
    exact ⟨p, hp, by simpa using he⟩

theorem countKey_perm {src : Nat} {s2 s2' : List (Nat × Nat)}
    (h : s2.Perm s2') : countKey src s2 = countKey src s2' :=
  h.countP_eq _

theorem findRemove_none_iff {src : Nat} {s2 : List (Nat × Nat)} :
    findRemove src s2 = none ↔ countKey src s2 = 0 := by
  induction s2 with
  | nil => simp [findRemove, countKey]
  | cons p rest ih =>
    by_cases h : p.1 = src
    · simp [findRemove, h, countKey_cons]
    · rw [countKey_cons]
      simp only [h, if_false, Nat.add_zero]
      rw [← ih]
      simp only [findRemove, h, if_false]
      cases hf : findRemove src rest with
      | none => simp
      | some r => simp

theorem findRemove_some_spec {src : Nat} {s2 : List (Nat × Nat)} :
    ∀ {x : Nat} {rest : List (Nat × Nat)},
      findRemove src s2 = some (x, rest) →
      s2.Perm ((src, x) :: rest) ∧
      countKey src s2 = countKey src rest + 1 := by
  induction s2 with
  | nil => intro x rest h; simp [findRemove] at h
  | cons p t ih =>
    intro x rest h
    by_cases hp : p.1 = src
    · simp only [findRemove, hp, if_true, Option.some_inj] at h
      have hx : p.2 = x ∧ t = rest := by
        have := (Prod.mk.injEq _ _ _ _).mp h
        exact this
      have hpe : p = (src, x) := by
        cases p
        simp at hp hx ⊢
        exact ⟨hp, hx.1⟩
      rw [← hx.2, hpe, countKey_cons]
      simp
    · simp only [findRemove, hp, if_false] at h
      cases hf : findRemove src t with
      | none => rw [hf] at h; exact absurd h (by simp)
      | some r =>
        obtain ⟨y, t'⟩ := r
        rw [hf] at h
        simp only [Option.some_inj] at h
        have hx : y = x ∧ p :: t' = rest := (Prod.mk.injEq _ _ _ _).mp h
        obtain ⟨rfl, rfl⟩ := hx
        have hrec := ih hf
        constructor
        · exact (hrec.1.cons p).trans (List.Perm.swap _ _ _)
        · rw [countKey_cons, countKey_cons, hrec.2]
          simp [hp]

theorem alookup_single (k src dst : Nat) :
    alookup k [(src, dst)] = if src = k then some dst else none := by
  simp [alookup]

theorem fval_single_of_ne {src dst l : Nat} (h : l ≠ src) :
    fval [(src, dst)] l = l := by
  unfold fval
  rw [alookup_single]
  have : ¬src = l := fun he => h he.symm
  simp [this]

theorem fval_single_self (src dst : Nat) : fval [(src, dst)] src = dst := by
  unfold fval
  rw [alookup_single]
  simp

theorem mapF_single_id {src dst : Nat} {sccs : List (Nat × Nat)}
    (h : ∀ p ∈ sccs, p.2 ≠ src) : mapF [(src, dst)] sccs = sccs := by
  induction sccs with
  | nil => rfl
  | cons p rest ih =>
    unfold mapF at ih ⊢
    rw [List.map_cons, fval_single_of_ne (h p (List.mem_cons_self _ _)),
      Prod.mk.eta, ih (fun q hq => h q (List.mem_cons_of_mem _ hq))]

theorem mapF_setVal {x src dst : Nat} {sccs : List (Nat × Nat)}
    (hnd : NodupKeys sccs) (hmem : (x, src) ∈ sccs) (hne : dst ≠ src) :
    mapF [(src, dst)] (setVal x dst sccs) = mapF [(src, dst)] sccs := by
  unfold mapF setVal
  rw [List.map_map]
  apply List.map_congr_left
  intro p hp
  by_cases hx : p.1 = x
  · have hpx : p = (x, src) := by
      have h1 := alookup_of_mem hnd hmem
      have h2 := alookup_of_mem hnd (show (p.1, p.2) ∈ sccs by rw [Prod.mk.eta]; exact hp)
      rw [hx, h1] at h2
      cases p
      simp at hx h2 ⊢
      exact ⟨hx, h2.symm⟩
    subst hpx
    simp [Function.comp, fval_single_self, fval_single_of_ne hne]
  · simp only [Function.comp_apply, if_neg hx]

theorem keysOf_perm {l l' : List (Nat × Nat)} (h : l.Perm l') :
    (keysOf l).Perm (keysOf l') := h.map _

theorem moveLoop_spec :
    ∀ (fuel src dst : Nat) (sccs s2 : List (Nat × Nat)) (k : Nat),
      NodupKeys sccs →
      s2.Perm (sccs.map (fun p => (p.2, p.1))) →
      dst ≠ src →
      countKey src s2 ≤ fuel →
      (moveLoop fuel src dst sccs s2 k).1 = mapF [(src, dst)] sccs ∧
      (moveLoop fuel src dst sccs s2 k).2.1.Perm
        ((mapF [(src, dst)] sccs).map (fun p => (p.2, p.1))) ∧
      (moveLoop fuel src dst sccs s2 k).2.2 = k + countKey src s2 := by
  intro fuel
  induction fuel with
  | zero =>
    intro src dst sccs s2 k hnd hperm hne hcount
    have hc0 : countKey src s2 = 0 := by omega
    have hnosrc : ∀ p ∈ sccs, p.2 ≠ src := by
      intro p hp he
      have hmem : (p.2, p.1) ∈ s2 := hperm.symm.subset (List.mem_map_of_mem _ hp)
      have : 0 < countKey src s2 := countKey_pos.mpr ⟨(p.2, p.1), hmem, he⟩
      omega
    simp only [moveLoop]
    rw [mapF_single_id hnosrc]
    exact ⟨rfl, hperm, by omega⟩
  | succ f ih =>
    intro src dst sccs s2 k hnd hperm hne hcount
    cases hf : findRemove src s2 with
    | none =>
      have hc0 : countKey src s2 = 0 := findRemove_none_iff.mp hf
      have hnosrc : ∀ p ∈ sccs, p.2 ≠ src := by
        intro p hp he
        have hmem : (p.2, p.1) ∈ s2 := hperm.symm.subset (List.mem_map_of_mem _ hp)
        have : 0 < countKey src s2 := countKey_pos.mpr ⟨(p.2, p.1), hmem, he⟩
        omega
      simp only [moveLoop, hf]
      rw [mapF_single_id hnosrc]
      exact ⟨rfl, hperm, by omega⟩
    | some r =>
      obtain ⟨x, rest⟩ := r
      have hfs := findRemove_some_spec hf
      have hs2 : s2.Perm ((src, x) :: rest) := hfs.1
      have hsccs : sccs.Perm ((x, src) :: rest.map (fun p => (p.2, p.1))) := by
        have h1 : (sccs.map (fun p : Nat × Nat => (p.2, p.1))).Perm ((src, x) :: rest) :=
          hperm.symm.trans hs2
        have h2 := h1.map (fun p : Nat × Nat => (p.2, p.1))
        rw [map_swap_swap, List.map_cons] at h2
        exact h2
      have hxmem : (x, src) ∈ sccs := hsccs.symm.subset (List.mem_cons_self _ _)
      have hxkeys : x ∉ keysOf (rest.map (fun p : Nat × Nat => (p.2, p.1))) := by
        have hk := keysOf_perm hsccs
        rw [keysOf_cons] at hk
        have hnd2 := hk.nodup_iff.mp hnd
        exact (List.nodup_cons.mp hnd2).1
      have hsetmap : setVal x dst ((x, src) :: rest.map (fun p : Nat × Nat => (p.2, p.1))) =
          (x, dst) :: rest.map (fun p : Nat × Nat => (p.2, p.1)) := by
        rw [setVal_cons, if_pos rfl, setVal_of_not_mem dst hxkeys]
      have hsccs' : (setVal x dst sccs).Perm
          ((x, dst) :: rest.map (fun p : Nat × Nat => (p.2, p.1))) := by
        have h1 : (setVal x dst sccs).Perm
            (setVal x dst ((x, src) :: rest.map (fun p : Nat × Nat => (p.2, p.1)))) :=
          hsccs.map _
        rw [hsetmap] at h1
        exact h1
      have hrevOk' : ((dst, x) :: rest).Perm
          ((setVal x dst sccs).map (fun p : Nat × Nat => (p.2, p.1))) := by
        have h1 := hsccs'.map (fun p : Nat × Nat => (p.2, p.1))
        rw [List.map_cons, map_swap_swap] at h1
        exact h1.symm
      have hcount' : countKey src ((dst, x) :: rest) = countKey src rest := by
        rw [countKey_cons]
        simp [fun h => hne h]
      have hnd' : NodupKeys (setVal x dst sccs) := by
        unfold NodupKeys
        rw [keysOf_setVal]
        exact hnd
      have hcnt : countKey src s2 = countKey src rest + 1 := hfs.2
      have hle : countKey src ((dst, x) :: rest) ≤ f := by
        rw [hcount']
        omega
      have hrec := ih src dst (setVal x dst sccs) ((dst, x) :: rest) (k + 1)
        hnd' hrevOk' hne hle
      simp only [moveLoop, hf]
      refine ⟨?_, ?_, ?_⟩
      · rw [hrec.1]
        exact mapF_setVal hnd hxmem hne
      · rw [← mapF_setVal hnd hxmem hne]
        exact hrec.2.1
      · rw [hrec.2.2, hcount', hcnt]
        omega

theorem mapF_nil (sccs : List (Nat × Nat)) : mapF [] sccs = sccs := by
  induction sccs with
  | nil => rfl
  | cons p rest ih =>
    unfold mapF at ih ⊢
    rw [List.map_cons, ih]
    have : fval [] p.2 = p.2 := rfl
    rw [this, Prod.mk.eta]

theorem fval_cons {src dst : Nat} {rest : List (Nat × Nat)}
    (hdst : dst ∉ keysOf rest) (l : Nat) :
    fval rest (fval [(src, dst)] l) = fval ((src, dst) :: rest) l := by
  by_cases h : l = src
  · subst h
    rw [fval_single_self]
    have h1 : alookup dst rest = none := alookup_eq_none.mpr hdst
    have h2 : alookup l ((l, dst) :: rest) = some dst := by
      simp [alookup]
    unfold fval
    rw [h1, h2]
    rfl
  · rw [fval_single_of_ne h]
    have h2 : alookup l ((src, dst) :: rest) = alookup l rest := by
      have : ¬src = l := fun he => h he.symm
      simp [alookup, this]
    unfold fval
    rw [h2]

theorem mapF_comp {src dst : Nat} {rest sccs : List (Nat × Nat)}
    (hdst : dst ∉ keysOf rest) :
    mapF rest (mapF [(src, dst)] sccs) = mapF ((src, dst) :: rest) sccs := by
  unfold mapF
  rw [List.map_map]
  apply List.map_congr_left
  intro p _
  simp only [Function.comp_apply]
  rw [fval_cons hdst]

theorem applyIndexed_spec :
    ∀ (m' sccs s2 : List (Nat × Nat)) (k : Nat),
      NodupKeys sccs →
      s2.Perm (sccs.map (fun p => (p.2, p.1))) →
      NodupKeys m' →
      Decreasing m' →
      (∀ p ∈ m', p.2 ∉ keysOf m') →
      (∀ p ∈ m', ∃ a, (a, p.1) ∈ sccs) →
      (applyIndexed m' sccs s2 k).1 = mapF m' sccs ∧
      (applyIndexed m' sccs s2 k).2.1.Perm
        ((mapF m' sccs).map (fun p => (p.2, p.1))) ∧
      k ≤ (applyIndexed m' sccs s2 k).2.2 ∧
      (m' ≠ [] → k < (applyIndexed m' sccs s2 k).2.2) := by
  intro m'
  induction m' with
  | nil =>
    intro sccs s2 k hnd hperm _ _ _ _
    simp only [applyIndexed]
    rw [mapF_nil]
    exact ⟨rfl, hperm, Nat.le_refl _, fun h => absurd rfl h⟩
  | cons e rest ih =>
    intro sccs s2 k hnd hperm hndm hdec htgt hmem
    obtain ⟨src, dst⟩ := e
    have hdne : dst ≠ src :=
      Nat.ne_of_lt (hdec (src, dst) (List.mem_cons_self _ _))
    rcases hmem (src, dst) (List.mem_cons_self _ _) with ⟨a, ha⟩
    have hs2mem : (src, a) ∈ s2 := by
      refine hperm.symm.subset ?_
      exact List.mem_map_of_mem (fun p => (p.2, p.1)) ha
    have hcpos : 0 < countKey src s2 := countKey_pos.mpr ⟨(src, a), hs2mem, rfl⟩
    have hfr : findRemove src s2 ≠ none := by
      intro hc
      rw [findRemove_none_iff] at hc
      omega
    cases hf : findRemove src s2 with
    | none => exact absurd hf hfr
    | some r =>
      have hml := moveLoop_spec (countKey src s2) src dst sccs s2 k
        hnd hperm hdne (Nat.le_refl _)
      have hkeys_rest : keysOf ((src, dst) :: rest) = src :: keysOf rest :=
        keysOf_cons _ _
      have hsrc_not : src ∉ keysOf rest := by
        have := hndm
        unfold NodupKeys at this
        rw [hkeys_rest] at this
        exact (List.nodup_cons.mp this).1
      have hdst_rest : dst ∉ keysOf rest := by
        have h1 := htgt (src, dst) (List.mem_cons_self _ _)
        rw [hkeys_rest] at h1
        intro hc
        exact h1 (List.mem_cons_of_mem _ hc)
      have hnd1 : NodupKeys (mapF [(src, dst)] sccs) := by
        unfold NodupKeys
        rw [keysOf_mapF]
        exact hnd
      have hrec := ih (mapF [(src, dst)] sccs)
        (moveLoop (countKey src s2) src dst sccs s2 k).2.1
        (moveLoop (countKey src s2) src dst sccs s2 k).2.2
        hnd1 hml.2.1
        (List.nodup_cons.mp hndm).2
        (fun p hp => hdec p (List.mem_cons_of_mem _ hp))
        (fun p hp hc => htgt p (List.mem_cons_of_mem _ hp)
          (hkeys_rest ▸ List.mem_cons_of_mem _ hc))
        ?_
      · simp only [applyIndexed, hf]
        refine ⟨?_, ?_, ?_, ?_⟩
        · rw [hml.1, hrec.1]
          exact mapF_comp hdst_rest
        · rw [hml.1]
          have hthis := hrec.2.1
          rw [mapF_comp hdst_rest] at hthis
          exact hthis
        · rw [hml.1]
          refine Nat.le_trans ?_ hrec.2.2.1
          rw [hml.2.2]
          omega
        · intro _
          rw [hml.1]
          refine Nat.lt_of_lt_of_le ?_ hrec.2.2.1
          rw [hml.2.2]
          omega
      · intro p hp
        rcases hmem p (List.mem_cons_of_mem _ hp) with ⟨b, hb⟩
        refine ⟨b, ?_⟩
        have hp1 : p.1 ≠ src := by
          intro hc
          exact hsrc_not (hc ▸ mem_keysOf hp)
        have hfv : fval [(src, dst)] p.1 = p.1 := fval_single_of_ne hp1
        rw [← hfv]
        exact mem_mapF.mpr ⟨(b, p.1), hb, rfl⟩

/-! ### Resolved-merge structure lemmas -/

theorem keysOf_eq_nil {m : List (Nat × Nat)} (h : keysOf m = []) : m = [] := by
  cases m with
  | nil => rfl
  | cons p rest => simp [keysOf] at h

theorem resolveMerge_nodup {m : List (Nat × Nat)} (hnd : NodupKeys m)
    (hdec : Decreasing m) : NodupKeys (resolveMerge m) := by
  unfold NodupKeys at hnd ⊢
  rw [(resolveMerge_spec hdec).2.1]
  exact hnd

theorem resolveMerge_entries {m : List (Nat × Nat)} (hnd : NodupKeys m)
    (hdec : Decreasing m) :
    ∀ p ∈ resolveMerge m, p.1 ∈ keysOf m ∧ p.2 = chase m p.1 := by
  intro p hp
  have hkey : p.1 ∈ keysOf m := by
    rw [← (resolveMerge_spec hdec).2.1]
    exact mem_keysOf hp
  have h1 : alookup p.1 (resolveMerge m) = some p.2 := by
    apply alookup_of_mem (resolveMerge_nodup hnd hdec)
    rw [Prod.mk.eta]
    exact hp
  have h2 := (resolveMerge_spec hdec).2.2.2 p.1 hkey
  rw [h1] at h2
  exact ⟨hkey, Option.some_inj.mp h2⟩

theorem resolveMerge_targets {m : List (Nat × Nat)} (hnd : NodupKeys m)
    (hdec : Decreasing m) :
    ∀ p ∈ resolveMerge m, p.2 ∉ keysOf (resolveMerge m) := by
  intro p hp hc
  have he := resolveMerge_entries hnd hdec p hp
  rw [(resolveMerge_spec hdec).2.1] at hc
  have h1 : alookup p.2 m = none := by
    rw [he.2]
    exact chase_fix hdec p.1
  exact alookup_eq_none.mp h1 hc

theorem resolveMerge_ne_nil {m : List (Nat × Nat)} (hdec : Decreasing m)
    (hm : m ≠ []) : resolveMerge m ≠ [] := by
  intro hc
  have h1 := (resolveMerge_spec hdec).2.1
  rw [hc] at h1
  exact hm (keysOf_eq_nil h1.symm)

theorem getL_key {t : List (Nat × Nat)} {x : Nat} (h : x ∈ keysOf t) :
    alookup x t = some (getL t x) ∧ (x, getL t x) ∈ t := by
  rcases alookup_of_mem_keys h with ⟨v, hv⟩
  have hg : getL t x = v := by
    unfold getL
    rw [hv]
    rfl
  rw [hg]
  exact ⟨hv, alookup_mem hv⟩

/-- Every key of the scan merge map is the current label of some node of the
label table, and so is every value. -/
theorem scan_merge_labels {st : St} (hG : GoodSt st) :
    ∀ q ∈ (scanEdges st.sccs st.edges).2,
      (∃ a ∈ keysOf st.sccs, getL st.sccs a = q.1) ∧
      (∃ b ∈ keysOf st.sccs, getL st.sccs b = q.2) := by
  intro q hq
  rcases scanEdges_merge_spec (fun e he => he) q hq with ⟨e, he, _, h1, h2⟩
  have hends := hG.2.1 e he
  constructor
  · rcases max_choice (getL st.sccs e.1) (getL st.sccs e.2) with hc | hc
    · exact ⟨e.1, hends.1, by rw [← hc, ← h1]⟩
    · exact ⟨e.2, hends.2, by rw [← hc, ← h1]⟩
  · rcases min_choice (getL st.sccs e.1) (getL st.sccs e.2) with hc | hc
    · exact ⟨e.1, hends.1, by rw [← hc, ← h2]⟩
    · exact ⟨e.2, hends.2, by rw [← hc, ← h2]⟩

/-- Values of the label table are themselves labels of table entries. -/
theorem label_is_value {st : St} (hG : GoodSt st) {a : Nat}
    (ha : a ∈ keysOf st.sccs) : getL st.sccs a ∈ keysOf st.sccs :=
  hG.2.2.1 _ (getL_key ha).2

/-- Properties of the resolved merge map of a scan from a good state. -/
theorem resolved_props {st : St} (hG : GoodSt st) :
    Decreasing (resolveMerge (scanEdges st.sccs st.edges).2) ∧
    NodupKeys (resolveMerge (scanEdges st.sccs st.edges).2) ∧
    (∀ p ∈ resolveMerge (scanEdges st.sccs st.edges).2,
      p.2 ∉ keysOf (resolveMerge (scanEdges st.sccs st.edges).2)) ∧
    (∀ p ∈ resolveMerge (scanEdges st.sccs st.edges).2,
      ∃ a, (a, p.1) ∈ st.sccs) ∧
    (∀ p ∈ resolveMerge (scanEdges st.sccs st.edges).2,
      p.2 ∈ keysOf st.sccs) := by
  have hndm := scanEdges_merge_nodup st.sccs st.edges
  have hdecm : Decreasing (scanEdges st.sccs st.edges).2 := scanEdges_merge_decreasing
  refine ⟨(resolveMerge_spec hdecm).1, resolveMerge_nodup hndm hdecm,
    resolveMerge_targets hndm hdecm, ?_, ?_⟩
  · intro p hp
    have he := resolveMerge_entries hndm hdecm p hp
    rcases alookup_of_mem_keys he.1 with ⟨v, hv⟩
    rcases scan_merge_labels hG _ (alookup_mem hv) with ⟨⟨a, ha, hga⟩, _⟩
    refine ⟨a, ?_⟩
    have hmem := (getL_key ha).2
    rw [hga] at hmem
    exact hmem
  · intro p hp
    have he := resolveMerge_entries hndm hdecm p hp
    rcases chase_mem hdecm p.1 with h1 | ⟨q, hq, h2⟩
    · exfalso
      have hn : alookup p.1 (scanEdges st.sccs st.edges).2 = none := by
        rw [← h1]
        exact chase_fix hdecm p.1
      exact alookup_eq_none.mp hn he.1
    · rw [he.2, h2]
      rcases scan_merge_labels hG q hq with ⟨_, ⟨b, hb, hgb⟩⟩
      rw [← hgb]
      exact label_is_value hG hb

/-! ### Step characterization -/

/-- Rewriting the label table by a resolved merge map preserves the state
invariants, whatever the new edge list (as long as it shrinks) and
whatever the new reverse index (as long as it is absent or consistent). -/
theorem GoodSt_mapF {st : St} (hG : GoodSt st) {m' : List (Nat × Nat)}
    (hdec : Decreasing m') (hval : ∀ p ∈ m', p.2 ∈ keysOf st.sccs)
    {es' s2' : List (Nat × Nat)} (hes : ∀ e ∈ es', e ∈ st.edges)
    (hs2 : s2' = [] ∨ RevOk (mapF m' st.sccs) s2') :
    GoodSt (St.mk es' (mapF m' st.sccs) s2') := by
  refine ⟨?_, ?_, ?_, ?_, hs2⟩
  · show NodupKeys (mapF m' st.sccs)
    unfold NodupKeys
    rw [keysOf_mapF]
    exact hG.1
  · intro e he
    show e.1 ∈ keysOf (mapF m' st.sccs) ∧ e.2 ∈ keysOf (mapF m' st.sccs)
    rw [keysOf_mapF]
    exact hG.2.1 e (hes e he)
  · intro p hp
    show p.2 ∈ keysOf (mapF m' st.sccs)
    rw [keysOf_mapF]
    rcases mem_mapF.mp hp with ⟨q, hq, hqe⟩
    rw [hqe]
    cases hv : alookup q.2 m' with
    | none =>
      have hf : fval m' q.2 = q.2 := by
        unfold fval
        rw [hv]
        rfl
      rw [hf]
      exact hG.2.2.1 q hq
    | some t =>
      have hf : fval m' q.2 = t := by
        unfold fval
        rw [hv]
        rfl
      rw [hf]
      exact hval (q.2, t) (alookup_mem hv)
  · intro p hp
    rcases mem_mapF.mp hp with ⟨q, hq, hqe⟩
    rw [hqe]
    exact Nat.le_trans (fval_le hdec q.2) (hG.2.2.2.1 q hq)

theorem step_spec (ur : Bool) (st : St) (hG : GoodSt st) :
    ((scanEdges st.sccs st.edges).2 = [] ∧ step ur st = StepRes.converged st.sccs) ∨
    ((scanEdges st.sccs st.edges).2 ≠ [] ∧
      ∃ st', step ur st = StepRes.running st' ∧
        st'.edges = (scanEdges st.sccs st.edges).1 ∧
        st'.sccs = mapF (resolveMerge (scanEdges st.sccs st.edges).2) st.sccs ∧
        (ur = false → st.sccs2 = [] → st'.sccs2 = []) ∧
        GoodSt st' ∧
        sumVals st'.sccs < sumVals st.sccs) := by
  by_cases hm : (scanEdges st.sccs st.edges).2 = []
  · left
    refine ⟨hm, ?_⟩
    unfold step
    rw [if_pos hm]
  · right
    refine ⟨hm, ?_⟩
    have hdecm : Decreasing (scanEdges st.sccs st.edges).2 := scanEdges_merge_decreasing
    have hrp := resolved_props hG
    have hm' : resolveMerge (scanEdges st.sccs st.edges).2 ≠ [] :=
      resolveMerge_ne_nil hdecm hm
    have hsome : ∃ p ∈ st.sccs,
        (alookup p.2 (resolveMerge (scanEdges st.sccs st.edges).2)).isSome := by
      rcases List.exists_mem_of_ne_nil _ hm' with ⟨q, hq⟩
      rcases hrp.2.2.2.1 q hq with ⟨a, ha⟩
      refine ⟨(a, q.1), ha, ?_⟩
      have hlk : alookup q.1 (resolveMerge (scanEdges st.sccs st.edges).2) = some q.2 :=
        alookup_of_mem hrp.2.1 (by rw [Prod.mk.eta]; exact hq)
      simp [hlk]
    have hsum : sumVals (mapF (resolveMerge (scanEdges st.sccs st.edges).2) st.sccs) <
        sumVals st.sccs := by
      apply sumVals_mapF_lt hrp.1
      rcases hsome with ⟨p, hp, hs⟩
      rcases Option.isSome_iff_exists.mp hs with ⟨t, ht⟩
      exact ⟨p, hp, mem_keysOf_of_alookup ht⟩
    unfold step
    rw [if_neg hm]
    by_cases h2 : st.sccs2 = []
    · rw [if_pos h2]
      have hfull := applyFullGo_spec (resolveMerge (scanEdges st.sccs st.edges).2)
        ur st.sccs [] 0
      have hkpos : ¬(applyFullGo (resolveMerge (scanEdges st.sccs st.edges).2)
          ur st.sccs [] 0).2.2 = 0 := by
        rw [hfull.2.1]
        have hcp : 0 < st.sccs.countP
            (fun p => (alookup p.2 (resolveMerge (scanEdges st.sccs st.edges).2)).isSome) := by
          rw [List.countP_pos_iff]
          rcases hsome with ⟨p, hp, hs⟩
          exact ⟨p, hp, hs⟩
        omega
      rw [if_neg hkpos]
      have hGood : GoodSt (St.mk (scanEdges st.sccs st.edges).1
          (mapF (resolveMerge (scanEdges st.sccs st.edges).2) st.sccs)
          (applyFullGo (resolveMerge (scanEdges st.sccs st.edges).2) ur st.sccs [] 0).2.1) := by
        apply GoodSt_mapF hG hrp.1 hrp.2.2.2.2 scanEdges_edges_subset
        rw [hfull.2.2]
        by_cases hur : ur
        · right
          rw [hur]
          simp only [if_true]
          exact applyFull_revOk (resolveMerge (scanEdges st.sccs st.edges).2) st.sccs
        · left
          simp [hur]
      rw [← hfull.1] at hGood hsum
      refine ⟨_, rfl, rfl, hfull.1, ?_, hGood, hsum⟩
      intro hur _
      rw [hfull.2.2, hur]
      simp
    · rw [if_neg h2]
      have hrev : RevOk st.sccs st.sccs2 := by
        rcases hG.2.2.2.2 with h3 | h3
        · exact absurd h3 h2
        · exact h3
      have hidx := applyIndexed_spec (resolveMerge (scanEdges st.sccs st.edges).2)
        st.sccs st.sccs2 0 hG.1 hrev hrp.2.1 hrp.1 hrp.2.2.1 hrp.2.2.2.1
      have hkpos : ¬(applyIndexed (resolveMerge (scanEdges st.sccs st.edges).2)
          st.sccs st.sccs2 0).2.2 = 0 := by
        have := hidx.2.2.2 hm'
        omega
      rw [if_neg hkpos]
      have hGood : GoodSt (St.mk (scanEdges st.sccs st.edges).1
          (mapF (resolveMerge (scanEdges st.sccs st.edges).2) st.sccs)
          (applyIndexed (resolveMerge (scanEdges st.sccs st.edges).2)
            st.sccs st.sccs2 0).2.1) := by
        apply GoodSt_mapF hG hrp.1 hrp.2.2.2.2 scanEdges_edges_subset
        right
        exact hidx.2.1
      rw [← hidx.1] at hGood hsum
      refine ⟨_, rfl, rfl, hidx.1, ?_, hGood, hsum⟩
      intro _ h3
      exact absurd h3 h2

/-! ### Loop-level lemmas -/

theorem initSt_good (es : List (Nat × Nat)) : GoodSt (initSt es) := by
  unfold initSt GoodSt
  dsimp only
  refine ⟨buildSccs_nodup es [] List.nodup_nil, ?_, ?_, ?_, Or.inl rfl⟩
  · intro e he
    constructor
    · rw [buildSccs_keys]
      exact Or.inr (mem_nodesOf.mpr ⟨e, he, Or.inl rfl⟩)
    · rw [buildSccs_keys]
      exact Or.inr (mem_nodesOf.mpr ⟨e, he, Or.inr rfl⟩)
  · intro p hp
    have hd := buildSccs_diag es [] (by simp) p hp
    rw [hd]
    exact mem_keysOf hp
  · intro p hp
    have hd := buildSccs_diag es [] (by simp) p hp
    rw [hd]

theorem loop_not_outOfFuel (ur : Bool) :
    ∀ fuel st j, GoodSt st → sumVals st.sccs < fuel →
      loop ur fuel st j ≠ Outcome.outOfFuel := by
  intro fuel
  induction fuel with
  | zero =>
    intro st j _ h
    omega
  | succ f ih =>
    intro st j hG hsum
    rcases step_spec ur st hG with ⟨_, hs⟩ | ⟨_, st', hs, _, _, _, hG', hlt⟩
    · simp only [loop, hs]
      intro hc
      exact Outcome.noConfusion hc
    · simp only [loop, hs]
      exact ih st' (j + 1) hG' (by omega)

theorem loop_equiv_aux :
    ∀ fuel st_t st_f j, GoodSt st_t → GoodSt st_f →
      st_t.edges = st_f.edges → st_t.sccs = st_f.sccs → st_f.sccs2 = [] →
      loop true fuel st_t j = loop false fuel st_f j := by
  intro fuel
  induction fuel with
  | zero => intro st_t st_f j _ _ _ _ _; rfl
  | succ f ih =>
    intro st_t st_f j hGt hGf hedges hsccs hf2
    rcases step_spec true st_t hGt with ⟨hmt, hst⟩ | ⟨hmt, st_t', hst, het, hct, _, hGt', _⟩
    · have hmf : (scanEdges st_f.sccs st_f.edges).2 = [] := by
        rw [← hedges, ← hsccs]
        exact hmt
      rcases step_spec false st_f hGf with ⟨_, hsf⟩ | ⟨hmf', _, _, _, _, _, _, _⟩
      · simp only [loop, hst, hsf, hsccs]
      · exact absurd hmf hmf'
    · have hmf : (scanEdges st_f.sccs st_f.edges).2 ≠ [] := by
        rw [← hedges, ← hsccs]
        exact hmt
      rcases step_spec false st_f hGf with ⟨hmf', _⟩ | ⟨_, st_f', hsf, hef, hcf, hff, hGf', _⟩
      · exact absurd hmf' hmf
      · simp only [loop, hst, hsf]
        apply ih st_t' st_f' (j + 1) hGt' hGf'
        · rw [het, hef, hedges, hsccs]
        · rw [hct, hcf, hedges, hsccs]
        · exact hff rfl hf2

/-! ### Convergence lemmas -/

theorem getL_mapF {m' sccs : List (Nat × Nat)} {x : Nat}
    (hx : x ∈ keysOf sccs) :
    getL (mapF m' sccs) x = fval m' (getL sccs x) := by
  have h1 := (getL_key hx).1
  unfold getL
  rw [alookup_mapF, h1]
  rfl

/-- Every merge entry recorded by a scan joins two labels of nodes that
are connected in the original graph. -/
theorem scan_merge_reach {st : St} {E₀ : List (Nat × Nat)} (hG : GoodSt st)
    (hr : ∀ p ∈ st.sccs, Reach E₀ p.1 p.2)
    (hes : ∀ e ∈ st.edges, e ∈ E₀) :
    ∀ q ∈ (scanEdges st.sccs st.edges).2, Reach E₀ q.1 q.2 := by
  intro q hq
  rcases scanEdges_merge_spec (fun x hx => hx) q hq with ⟨e, he, _, h1, h2⟩
  have heE : e ∈ E₀ := hes e he
  have hkeys := hG.2.1 e he
  have hr1 : Reach E₀ e.1 (getL st.sccs e.1) := hr _ (getL_key hkeys.1).2
  have hr2 : Reach E₀ e.2 (getL st.sccs e.2) := hr _ (getL_key hkeys.2).2
  have hadj : Adj E₀ e.1 e.2 := Or.inl heE
  have h12 : Reach E₀ (getL st.sccs e.1) (getL st.sccs e.2) :=
    (reach_symm hr1).trans (Reach.step hadj hr2)
  rcases Nat.le_total (getL st.sccs e.1) (getL st.sccs e.2) with hc | hc
  · have hmax : max (getL st.sccs e.1) (getL st.sccs e.2) = getL st.sccs e.2 :=
      Nat.max_eq_right hc
    have hmin : min (getL st.sccs e.1) (getL st.sccs e.2) = getL st.sccs e.1 :=
      Nat.min_eq_left hc
    rw [h1, h2, hmax, hmin]
    exact reach_symm h12
  · have hmax : max (getL st.sccs e.1) (getL st.sccs e.2) = getL st.sccs e.1 :=
      Nat.max_eq_left hc
    have hmin : min (getL st.sccs e.1) (getL st.sccs e.2) = getL st.sccs e.2 :=
      Nat.min_eq_right hc
    rw [h1, h2, hmax, hmin]
    exact h12

/-- Entries of the resolved merge map also join connected labels. -/
theorem resolved_merge_reach {st : St} {E₀ : List (Nat × Nat)} (hG : GoodSt st)
    (hr : ∀ p ∈ st.sccs, Reach E₀ p.1 p.2)
    (hes : ∀ e ∈ st.edges, e ∈ E₀) :
    ∀ q ∈ resolveMerge (scanEdges st.sccs st.edges).2, Reach E₀ q.1 q.2 := by
  intro q hq
  have hndm := scanEdges_merge_nodup st.sccs st.edges
  have hdecm : Decreasing (scanEdges st.sccs st.edges).2 := scanEdges_merge_decreasing
  have he := resolveMerge_entries hndm hdecm q hq
  rw [he.2]
  exact chase_reach hdecm (scan_merge_reach hG hr hes) q.1

/-- The full invariant carried through the loop to the converged table. -/
theorem loop_converged_spec (ur : Bool) (E₀ : List (Nat × Nat)) :
    ∀ fuel st j tbl j', GoodSt st →
      (∀ p ∈ st.sccs, Reach E₀ p.1 p.2) →
      (∀ e ∈ st.edges, e ∈ E₀) →
      (∀ e ∈ E₀, e ∈ st.edges ∨ getL st.sccs e.1 = getL st.sccs e.2) →
      (∀ x, x ∈ keysOf st.sccs ↔ x ∈ nodesOf E₀) →
      loop ur fuel st j = Outcome.converged tbl j' →
      NodupKeys tbl ∧
      (∀ x, x ∈ keysOf tbl ↔ x ∈ nodesOf E₀) ∧
      (∀ p ∈ tbl, Reach E₀ p.1 p.2 ∧ p.2 ≤ p.1) ∧
      (∀ e ∈ E₀, getL tbl e.1 = getL tbl e.2) := by
  intro fuel
  induction fuel with
  | zero =>
    intro st j tbl j' _ _ _ _ _ hl
    exact absurd hl (by simp [loop])
  | succ f ih =>
    intro st j tbl j' hG hreach hsub hcover hkeys hl
    rcases step_spec ur st hG with ⟨hm, hs⟩ | ⟨hm, st', hs, hedg, hscc, _, hG', _⟩
    · simp only [loop, hs] at hl
      have htbl : tbl = st.sccs := by
        cases hl
        rfl
      subst htbl
      refine ⟨hG.1, hkeys, fun p hp => ⟨hreach p hp, hG.2.2.2.1 p hp⟩, ?_⟩
      intro e heE
      rcases hcover e heE with h1 | h1
      · exact scanEdges_empty_all_equal hm e h1
      · exact h1
    · simp only [loop, hs] at hl
      have hrp := resolved_props hG
      apply ih st' (j + 1) tbl j' hG' ?_ ?_ ?_ ?_ hl
      · intro p hp
        rw [hscc] at hp
        rcases mem_mapF.mp hp with ⟨q, hq, hqe⟩
        rw [hqe]
        refine (hreach q hq).trans ?_
        cases hv : alookup q.2 (resolveMerge (scanEdges st.sccs st.edges).2) with
        | none =>
          have hf : fval (resolveMerge (scanEdges st.sccs st.edges).2) q.2 = q.2 := by
            unfold fval
            rw [hv]
            rfl
          rw [hf]
          exact Reach.refl _
        | some t =>
          have hf : fval (resolveMerge (scanEdges st.sccs st.edges).2) q.2 = t := by
            unfold fval
            rw [hv]
            rfl
          rw [hf]
          exact resolved_merge_reach hG hreach hsub (q.2, t) (alookup_mem hv)
      · intro e he
        rw [hedg] at he
        exact hsub e (scanEdges_edges_subset e he)
      · intro e heE
        rcases hcover e heE with h1 | h1
        · rcases scanEdges_edges_cover e h1 with h2 | h2
          · left
            rw [hedg]
            exact h2
          · right
            have hk1 : e.1 ∈ keysOf st.sccs := (hG.2.1 e h1).1
            have hk2 : e.2 ∈ keysOf st.sccs := (hG.2.1 e h1).2
            rw [hscc, getL_mapF hk1, getL_mapF hk2, h2]
        · right
          have hk1 : e.1 ∈ keysOf st.sccs := by
            rw [hkeys]
            exact mem_nodesOf.mpr ⟨e, heE, Or.inl rfl⟩
          have hk2 : e.2 ∈ keysOf st.sccs := by
            rw [hkeys]
            exact mem_nodesOf.mpr ⟨e, heE, Or.inr rfl⟩
          rw [hscc, getL_mapF hk1, getL_mapF hk2, h1]
      · intro x
        rw [hscc, keysOf_mapF]
        exact hkeys x

/-- At a table whose labels agree across every edge, connected nodes carry
equal labels. -/
theorem reach_label_const {E tbl : List (Nat × Nat)}
    (hedge : ∀ e ∈ E, getL tbl e.1 = getL tbl e.2) :
    ∀ u w, Reach E u w → getL tbl u = getL tbl w := by
  intro u w h
  induction h with
  | refl => rfl
  | step ha _ ih =>
    refine Eq.trans ?_ ih
    rcases ha with h1 | h1
    · exact hedge _ h1
    · exact (hedge _ h1).symm

theorem step_running_spec {ur : Bool} {st st' : St} (hG : GoodSt st)
    (hs : step ur st = StepRes.running st') :
    st'.sccs = mapF (resolveMerge (scanEdges st.sccs st.edges).2) st.sccs ∧
    GoodSt st' := by
  rcases step_spec ur st hG with ⟨_, hc⟩ | ⟨_, st'', hc, _, hscc, _, hG'', _⟩
  · rw [hs] at hc
    exact absurd hc (by simp)
  · rw [hs] at hc
    have : st'' = st' := by
      cases hc
      rfl
    rw [← this]
    exact ⟨hscc, hG''⟩

theorem stepN_mono (ur : Bool) :
    ∀ n st st', GoodSt st → stepN ur n st = some st' →
      ∀ x l', alookup x st'.sccs = some l' →
        ∃ l, alookup x st.sccs = some l ∧ l' ≤ l := by
  intro n
  induction n with
  | zero =>
    intro st st' _ h x l' hl
    have : st = st' := by
      simp only [stepN, Option.some_inj] at h
      exact h
    rw [this]
    exact ⟨l', hl, Nat.le_refl _⟩
  | succ m ih =>
    intro st st' hG h x l' hl
    cases hs : step ur st with
    | running st1 =>
      simp only [stepN, hs] at h
      have hstep := step_running_spec hG hs
      rcases ih st1 st' hstep.2 h x l' hl with ⟨l1, hl1, hle1⟩
      rw [hstep.1, alookup_mapF] at hl1
      cases hv : alookup x st.sccs with
      | none =>
        rw [hv] at hl1
        exact absurd hl1 (by simp)
      | some l =>
        rw [hv] at hl1
        have hfl : fval (resolveMerge (scanEdges st.sccs st.edges).2) l = l1 :=
          Option.some_inj.mp hl1
        have hdec := (resolved_props hG).1
        refine ⟨l, rfl, ?_⟩
        have := fval_le hdec l
        rw [hfl] at this
        omega
    | converged tbl =>
      simp only [stepN, hs] at h
      exact Option.noConfusion h
    | error =>
      simp only [stepN, hs] at h
      exact Option.noConfusion h

/-! ### Graph-reading lemmas -/

theorem readGraphGo_all_overflow {lines : List InLine}
    (h : ∀ l ∈ lines, parseLine l = ParseRes.overflow) :
    ∀ i acc, readGraphGo lines i acc = ReadRes.ok i acc.reverse := by
  induction lines with
  | nil => intro i acc; rfl
  | cons l rest ih =>
    intro i acc
    have hl : parseLine l = ParseRes.overflow := h l (List.mem_cons_self _ _)
    simp only [readGraphGo, hl]
    exact ih (fun x hx => h x (List.mem_cons_of_mem _ hx)) i acc

/-! ### Claim theorems -/

/-- C1: when the iteration loop exits in the CONVERGED state, the label
table maps every node that appeared as an edge endpoint to the minimum
node id reachable from it in the input graph, and two nodes receive the
same final label if and only if they are connected. -/
theorem C1_converged_min_label (ur : Bool) (es : List (Nat × Nat))
    (fuel j j' : Nat) (tbl : List (Nat × Nat))
    (h : loop ur fuel (initSt es) j = Outcome.converged tbl j') :
    (∀ u, u ∈ nodesOf es →
      ∃ l, alookup u tbl = some l ∧ Reach es u l ∧ ∀ w, Reach es u w → l ≤ w) ∧
    (∀ u v, u ∈ nodesOf es → v ∈ nodesOf es →
      (alookup u tbl = alookup v tbl ↔ Reach es u v)) := by
  have hspec := loop_converged_spec ur es fuel (initSt es) j tbl j'
    (initSt_good es)
    (by
      intro p hp
      have hd := buildSccs_diag es [] (by simp) p hp
      rw [hd]
      exact Reach.refl _)
    (fun e he => he)
    (fun e he => Or.inl he)
    (by
      intro x
      show x ∈ keysOf (buildSccs es []) ↔ x ∈ nodesOf es
      rw [buildSccs_keys]
      simp [keysOf])
    h
  obtain ⟨hnd, hkeys, hent, hedge⟩ := hspec
  have hconst := reach_label_const hedge
  constructor
  · intro u hu
    have hk : u ∈ keysOf tbl := (hkeys u).mpr hu
    refine ⟨getL tbl u, (getL_key hk).1, (hent _ (getL_key hk).2).1, ?_⟩
    intro w hw
    rcases reach_mem_nodes hw with h1 | h1
    · rw [h1]
      have := (hent _ (getL_key hk).2).2
      exact this
    · have hkw : w ∈ keysOf tbl := (hkeys w).mpr h1
      have h2 : getL tbl u = getL tbl w := hconst u w hw
      have h3 : getL tbl w ≤ w := (hent _ (getL_key hkw).2).2
      omega
  · intro u v hu hv
    have hku : u ∈ keysOf tbl := (hkeys u).mpr hu
    have hkv : v ∈ keysOf tbl := (hkeys v).mpr hv
    constructor
    · intro heq
      have h1 : getL tbl u = getL tbl v := by
        have hgu := (getL_key hku).1
        have hgv := (getL_key hkv).1
        rw [hgu, hgv] at heq
        exact Option.some_inj.mp heq
      have h2 : Reach es u (getL tbl u) := (hent _ (getL_key hku).2).1
      have h3 : Reach es v (getL tbl v) := (hent _ (getL_key hkv).2).1
      rw [h1] at h2
      exact h2.trans (reach_symm h3)
    · intro hr
      have h1 : getL tbl u = getL tbl v := hconst u v hr
      rw [(getL_key hku).1, (getL_key hkv).1, h1]

/-- C1 witness: the converged table of the run on edges (1,2),(2,3). -/
theorem C1_converged_min_label_witness :
    (∀ u, u ∈ nodesOf [(1, 2), (2, 3)] →
      ∃ l, alookup u [(1, 1), (2, 1), (3, 1)] = some l ∧
        Reach [(1, 2), (2, 3)] u l ∧
        ∀ w, Reach [(1, 2), (2, 3)] u w → l ≤ w) ∧
    (∀ u v, u ∈ nodesOf [(1, 2), (2, 3)] → v ∈ nodesOf [(1, 2), (2, 3)] →
      (alookup u [(1, 1), (2, 1), (3, 1)] = alookup v [(1, 1), (2, 1), (3, 1)] ↔
        Reach [(1, 2), (2, 3)] u v)) :=
  C1_converged_min_label false [(1, 2), (2, 3)]
    (fuelBound [(1, 2), (2, 3)]) 0 1 [(1, 1), (2, 1), (3, 1)] (by decide)

/-- C3: with fuel bounded by the label sum the loop never runs out: every
run from an initial state reaches CONVERGED or ERROR after finitely many
steps. -/
theorem C3_loop_terminates (ur : Bool) (es : List (Nat × Nat)) :
    (∃ tbl j, loop ur (fuelBound es) (initSt es) 0 = Outcome.converged tbl j) ∨
    loop ur (fuelBound es) (initSt es) 0 = Outcome.error := by
  have h := loop_not_outOfFuel ur (fuelBound es) (initSt es) 0 (initSt_good es)
    (by
      show sumVals (buildSccs es []) < fuelBound es
      unfold fuelBound
      omega)
  cases hl : loop ur (fuelBound es) (initSt es) 0 with
  | converged tbl j => exact Or.inl ⟨tbl, j, rfl⟩
  | error => exact Or.inr rfl
  | outOfFuel => exact absurd hl h

/-- C5: after chain resolution every merge source maps directly to its
ultimate target: the stored target is itself no merge source, and it is
the representative reached by chasing the pre-resolution chain. -/
theorem C5_chains_resolved {m : List (Nat × Nat)} (hnd : NodupKeys m)
    (hdec : Decreasing m) :
    ∀ s t, alookup s (resolveMerge m) = some t →
      alookup t (resolveMerge m) = none ∧ t = chase m s := by
  intro s t h
  have hmem := alookup_mem h
  have he := resolveMerge_entries hnd hdec (s, t) hmem
  exact ⟨alookup_eq_none.mpr (resolveMerge_targets hnd hdec (s, t) hmem), he.2⟩

/-- C5 witness: the chain 3 -> 2 -> 1 collapses onto 1. -/
theorem C5_chains_resolved_witness :
    alookup 1 (resolveMerge [(3, 2), (2, 1)]) = none ∧
    (1 : Nat) = chase [(3, 2), (2, 1)] 3 :=
  C5_chains_resolved (by unfold NodupKeys keysOf; decide)
    (by unfold Decreasing; decide) 3 1 (by decide)

/-- C6: merge entries always point to strictly smaller labels, a step
never raises any label, applied relabelings strictly lower the label, and
iterating steps never raises any label. -/
theorem C6_labels_monotone (ur : Bool) (st : St) (hG : GoodSt st) :
    (∀ p ∈ (scanEdges st.sccs st.edges).2, p.2 < p.1) ∧
    (∀ st', step ur st = StepRes.running st' →
      ∀ x l', alookup x st'.sccs = some l' →
        ∃ l, alookup x st.sccs = some l ∧ l' ≤ l ∧
          (l ∈ keysOf (resolveMerge (scanEdges st.sccs st.edges).2) → l' < l)) ∧
    (∀ n st', stepN ur n st = some st' →
      ∀ x l', alookup x st'.sccs = some l' →
        ∃ l, alookup x st.sccs = some l ∧ l' ≤ l) := by
  refine ⟨fun p hp => scanEdges_merge_decreasing p hp, ?_,
    fun n st' hsn => stepN_mono ur n st st' hG hsn⟩
  · intro st' hs x l' hl
    have hstep := step_running_spec hG hs
    rw [hstep.1, alookup_mapF] at hl
    cases hv : alookup x st.sccs with
    | none =>
      rw [hv] at hl
      exact absurd hl (by simp)
    | some l =>
      rw [hv] at hl
      have hfl : fval (resolveMerge (scanEdges st.sccs st.edges).2) l = l' :=
        Option.some_inj.mp hl
      have hdec := (resolved_props hG).1
      refine ⟨l, rfl, ?_, ?_⟩
      · rw [← hfl]
        exact fval_le hdec l
      · intro hk
        rw [← hfl]
        exact fval_lt hdec hk

/-- C6 witness at the initial state of the single-edge graph. -/
theorem C6_labels_monotone_witness :
    (∀ p ∈ (scanEdges (initSt [(1, 2)]).sccs (initSt [(1, 2)]).edges).2, p.2 < p.1) ∧
    (∀ st', step false (initSt [(1, 2)]) = StepRes.running st' →
      ∀ x l', alookup x st'.sccs = some l' →
        ∃ l, alookup x (initSt [(1, 2)]).sccs = some l ∧ l' ≤ l ∧
          (l ∈ keysOf (resolveMerge
            (scanEdges (initSt [(1, 2)]).sccs (initSt [(1, 2)]).edges).2) → l' < l)) ∧
    (∀ n st', stepN false n (initSt [(1, 2)]) = some st' →
      ∀ x l', alookup x st'.sccs = some l' →
        ∃ l, alookup x (initSt [(1, 2)]).sccs = some l ∧ l' ≤ l) :=
  C6_labels_monotone false (initSt [(1, 2)]) (initSt_good [(1, 2)])

/-- C7: the final (node, label) output with the reverse index enabled is
identical to the output with it disabled, on every input. -/
theorem C7_reverse_index_equiv (lines : List InLine) :
    mainRun true lines = mainRun false lines := by
  unfold mainRun
  cases readEdges lines with
  | none => rfl
  | some es =>
    dsimp only
    by_cases hlen : es.length = 0
    · rw [if_pos hlen, if_pos hlen]
    · rw [if_neg hlen, if_neg hlen]
      have hl := loop_equiv_aux (fuelBound es) (initSt es) (initSt es) 0
        (initSt_good es) (initSt_good es) rfl rfl rfl
      rw [hl]

/-- C2 counter-evaluation: `read_graph` ignores its capacity parameter.
With capacity N = 1 and two valid input edges the loop performs a write
at index 1 ≥ N and returns success with both edges stored; nothing fails
and nothing is truncated deterministically. -/
theorem C2_capacity_ignored :
    readGraphGo [InLine.fields 1 2, InLine.fields 3 4] 0 [] =
      ReadRes.ok 2 [(0, 1, 2), (1, 3, 4)] ∧
    (∃ w ∈ [((0 : Nat), (1 : Nat), (2 : Nat)), (1, 3, 4)], 1 ≤ w.1) := by
  refine ⟨by decide, ⟨(1, 3, 4), by decide, by decide⟩⟩

/-- C4 evaluation: a state whose reverse index lacks the merge source
drives the loop to ERROR; the program then prints the diagnostic and
emits no pairs, but its exit status is 0 — exactly the status of a
successful run. -/
theorem C4_error_exit_status :
    loop true 5 (St.mk [(1, 2)] [(1, 1), (2, 2)] [(5, 9)]) 0 = Outcome.error ∧
    mainFinish Outcome.error = MainRes.mk 0 [] true ∧
    (mainRun false [InLine.fields 1 2]).exitCode = 0 := by decide

/-- C8 evaluation: open and truncate failures of the backing file are
fatal with distinct statuses and diagnostics, and so is an anonymous
mapping failure; but a file-backed mapping failure only prints its
diagnostic and falls through to the computation with an invalid buffer. -/
theorem C8_mmap_failure_not_fatal :
    setupBuffers 5 true (FsEnv.mk true true false) =
      ([SetupDiag.mmapFileFailed], Setup.proceed false) ∧
    setupBuffers 5 true (FsEnv.mk false true true) =
      ([SetupDiag.openFailed], Setup.fatal 2) ∧
    setupBuffers 5 true (FsEnv.mk true false true) =
      ([SetupDiag.truncateFailed], Setup.fatal 3) ∧
    setupBuffers 5 false (FsEnv.mk true true false) =
      ([SetupDiag.mmapAnonFailed], Setup.fatal 11) ∧
    setupBuffers 0 true (FsEnv.mk true true true) =
      ([SetupDiag.noBufferSize], Setup.fatal 1) := by decide

/-- C9: an out-of-range line is skipped and reading continues with the
next line leaving the already-stored edges untouched, any other parse
failure aborts reading as a fatal error, and the run on edges (5,9) plus
a negative line outputs exactly (5,5) and (9,5). -/
theorem C9_overflow_recoverable :
    (∀ pre post i acc (l : InLine), parseLine l = ParseRes.overflow →
      readGraphGo (pre ++ l :: post) i acc = readGraphGo (pre ++ post) i acc) ∧
    (∀ (l : InLine) rest i acc, parseLine l = ParseRes.bad →
      readGraphGo (l :: rest) i acc = ReadRes.fatal) ∧
    mainRun false [InLine.fields 5 9, InLine.fields (-1) 3] =
      MainRes.mk 0 [(5, 5), (9, 5)] false := by
  refine ⟨?_, ?_, by decide⟩
  · intro pre post i acc l hl
    induction pre generalizing i acc with
    | nil => simp [readGraphGo, hl]
    | cons p rest ih =>
      simp only [List.cons_append, readGraphGo]
      cases parseLine p with
      | ok u v => exact ih _ _
      | overflow => exact ih _ _
      | bad => rfl
  · intro l rest i acc hl
    simp [readGraphGo, hl]

/-- C9 witness: a skipped negative line between two runs of the reader. -/
theorem C9_overflow_recoverable_witness :
    readGraphGo [InLine.fields 5 9, InLine.fields (-1) 3] 0 [] =
      readGraphGo [InLine.fields 5 9] 0 [] ∧
    readGraphGo [InLine.malformed] 0 [] = ReadRes.fatal :=
  ⟨C9_overflow_recoverable.1 [InLine.fields 5 9] [] 0 [] _ (by decide),
   C9_overflow_recoverable.2.1 InLine.malformed [] 0 [] (by decide)⟩

/-- C10: an input stream yielding zero stored edges (empty, or every line
skipped as out of range) makes the program exit with status 1 and emit
no pairs, just as a fatal input error would. -/
theorem C10_zero_edges_exit_one (ur : Bool) (lines : List InLine)
    (h : ∀ l ∈ lines, parseLine l = ParseRes.overflow) :
    mainRun ur lines = MainRes.mk 1 [] false := by
  have hr : readEdges lines = some [] := by
    unfold readEdges
    rw [readGraphGo_all_overflow h 0 []]
    rfl
  unfold mainRun
  rw [hr]
  rfl

/-- C10 witness: a stream holding one negative line only. -/
theorem C10_zero_edges_exit_one_witness :
    mainRun false [InLine.fields (-1) 3] = MainRes.mk 1 [] false :=
  C10_zero_edges_exit_one false [InLine.fields (-1) 3] (by decide)

end Sccs32s
